import Mathlib

/-!
# Verification of the glov-build-cache index and reconciliation engine

A shallow embedding of `src/index.js`: the persisted cache-index format,
the per-input cache probe (`func` / `cacheMiss`) and the end-of-run
reconciliation (`finish`).  Byte buffers are modelled as `List Nat`,
the content digest (`md5` in the source) as an explicit function
parameter `hash : Bytes → String`, and the filesystem visible to the
cache as a partial map `fs : String → Option Bytes`.  JavaScript objects
used as string-keyed maps (`index`, `new_index`) are modelled as lists
of entries keyed by their `relative` field, updated in place by
`setEntry` (replace first occurrence or append, matching object-key
semantics).
-/

set_option maxHeartbeats 1000000

namespace GbCache

/-- Byte buffers (`Buffer` in the source). -/
abbrev Bytes := List Nat

/-- One output-file record of a cache entry.  Old (loaded) entries carry
only `relative` and `output_hash`; entries freshly recorded on a cache
miss additionally carry the produced bytes and the `needs_write` flag
(`undefined` on loaded entries is modelled by the defaults). -/
structure FileRec where
  relative : String
  output_hash : String
  needs_write : Bool := false
  contents : Option Bytes := none
deriving DecidableEq

/-- A cache entry: keyed by the input's relative path; `ver` is the
task version recorded for the entry, `input_hash` the digest of the
input bytes, `files` the output records.  `seen` is the transient
run-scoped flag set on a successful hit. -/
structure CacheEntry where
  relative : String
  ver : Nat
  input_hash : String
  files : List FileRec
  seen : Bool := false
deriving DecidableEq

/-- An index: the JS object mapping relative path to entry, as a list
of entries in insertion order (keys unique by construction). -/
abbrev Index := List CacheEntry

/-- A produced output file (an element of the job's output queue, or an
output delivered on a cache hit). -/
structure OutFile where
  relative : String
  contents : Bytes
deriving DecidableEq

/-- `index[r]`: first entry whose `relative` equals `r`. -/
def lookupEntry : Index → String → Option CacheEntry
  | [], _ => none
  | e :: rest, r => if e.relative = r then some e else lookupEntry rest r

/-- `index[r] = e`: replace the entry with the same key, keeping its
position, or append when absent (JS object assignment semantics). -/
def setEntry : Index → CacheEntry → Index
  | [], e => [e]
  | o :: rest, e => if o.relative = e.relative then e :: rest else o :: setEntry rest e

/-- `safeFilename`: replace every character outside `[A-Za-z0-9_.-]`
with an underscore. -/
def isSafeChar (c : Char) : Bool :=
  (('A' ≤ c) && (c ≤ 'Z')) || (('a' ≤ c) && (c ≤ 'z')) || (('0' ≤ c) && (c ≤ '9')) ||
  (c = '_') || (c = '.') || (c = '-')

def safeFilename (relative : String) : String :=
  String.mk (relative.data.map fun c => if isSafeChar c then c else '_')

/-- Split a character list at its last dot: returns the stem and the
extension (dot included); the extension is empty when no dot occurs.
Mirrors `fn.lastIndexOf('.')` followed by the two slices. -/
def splitAtLastDot : List Char → List Char × List Char
  | [] => ([], [])
  | c :: cs =>
    if '.' ∈ cs then
      let p := splitAtLastDot cs
      (c :: p.1, p.2)
    else if c = '.' then ([], c :: cs)
    else (c :: cs, [])

/-- `input_hash.slice(-7)`: the last seven characters (the whole string
when shorter). -/
def sliceLast7 (s : String) : String :=
  String.mk (s.data.drop (s.data.length - 7))

/-- `recordToFilename2`: the stable on-disk cache filename of one output
record, `cache_folder/stem#hhhhhhh.ext`. -/
def recordToFilename2 (cache_folder : String) (record : CacheEntry) (file_entry : FileRec) :
    String :=
  let fn := safeFilename file_entry.relative
  let p := splitAtLastDot fn.data
  cache_folder ++ "/" ++ String.mk p.1 ++ "#" ++ sliceLast7 record.input_hash ++ String.mk p.2

/-- The warnings emitted by the probe on cache-read failures, each
naming the offending on-disk path (`job.warn` in the source). -/
inductive CacheWarn where
  | loadFail (path : String)
  | corrupt (path : String) (expected found : String)
deriving DecidableEq

/-- Read and verify every cached output file of an entry, in order,
aborting at the first failure: a missing/unreadable file or a digest
mismatch against the recorded `output_hash` yields the corresponding
warning as an error. -/
def readCachedFiles (hash : Bytes → String) (fs : String → Option Bytes)
    (cache_folder : String) (record : CacheEntry) :
    List FileRec → Except CacheWarn (List OutFile)
  | [] => Except.ok []
  | fe :: rest =>
    let cached_file := recordToFilename2 cache_folder record fe
    match fs cached_file with
    | none => Except.error (CacheWarn.loadFail cached_file)
    | some buffer =>
      let found_hash := hash buffer
      if found_hash ≠ fe.output_hash then
        Except.error (CacheWarn.corrupt cached_file fe.output_hash found_hash)
      else
        match readCachedFiles hash fs cache_folder record rest with
        | Except.error e => Except.error e
        | Except.ok outs => Except.ok ({ relative := fe.relative, contents := buffer } :: outs)

/-- Mark the old-index entry for `r` as seen (`cache_record.seen = true`). -/
def markSeen (idx : Index) (r : String) : Index :=
  idx.map fun e => if e.relative = r then { e with seen := true } else e

/-- The mutable state threaded through per-input processing: the old
index (for the `seen` flags), the new index, and the two counters. -/
structure FuncState where
  index : Index
  new_index : Index
  cache_hit : Nat
  cache_miss : Nat
deriving DecidableEq

/-- Outcome of processing one input. -/
inductive FuncOutcome where
  /-- The assertion on the relative path failed (fatal). -/
  | assertFail
  /-- Cache hit: the listed outputs were delivered via `job.out`. -/
  | hit (outputs : List OutFile)
  /-- Cache miss, wrapped transform completed without error. -/
  | missDone
  /-- Cache miss, wrapped transform failed; the error is propagated. -/
  | missErr (e : String)
deriving DecidableEq

def isMissOutcome : FuncOutcome → Bool
  | FuncOutcome.missDone => true
  | FuncOutcome.missErr _ => true
  | _ => false

/-- `cacheMiss`: bump the miss counter and run the wrapped transform
(whose behaviour on this input is the `transform` value: an error, or
the output queue it produced).  On success with write-back enabled,
record a new entry holding every produced output with its digest, the
raw bytes and `needs_write`; on error nothing is recorded and the error
is passed through to `done`. -/
def cacheMiss (hash : Bytes → String) (version : Nat) (do_cache_write : Bool)
    (transform : Except String (List OutFile)) (st : FuncState)
    (relative : String) (input_hash : String) : FuncOutcome × FuncState :=
  let st := { st with cache_miss := st.cache_miss + 1 }
  match transform with
  | Except.error err => (FuncOutcome.missErr err, st)
  | Except.ok outs =>
    if do_cache_write then
      let new_entry : CacheEntry :=
        { relative := relative, ver := version, input_hash := input_hash,
          files := outs.map fun o =>
            { relative := o.relative, output_hash := hash o.contents,
              needs_write := true, contents := some o.contents } }
      (FuncOutcome.missDone, { st with new_index := setEntry st.new_index new_entry })
    else
      (FuncOutcome.missDone, st)

/-- `func`: process one input file.  Asserts the relative path contains
no `;`, then probes the old index: a valid-looking entry (present, same
version, same input hash) has its cached files read and verified; on
success the outputs are delivered, the hit counter bumped and the entry
marked seen; any read failure produces a warning and falls back to
`cacheMiss`, as does an absent or invalid entry. -/
def func (hash : Bytes → String) (fs : String → Option Bytes) (cache_folder : String)
    (version : Nat) (do_cache_write : Bool) (transform : Except String (List OutFile))
    (st : FuncState) (relative : String) (contents : Bytes) :
    FuncOutcome × FuncState × List CacheWarn :=
  if relative.data.contains ';' then
    (FuncOutcome.assertFail, st, [])
  else
    let input_hash := hash contents
    match lookupEntry st.index relative with
    | some cache_record =>
      if cache_record.ver = version ∧ cache_record.input_hash = input_hash then
        match readCachedFiles hash fs cache_folder cache_record cache_record.files with
        | Except.error w =>
          let r := cacheMiss hash version do_cache_write transform st relative input_hash
          (r.1, r.2, [w])
        | Except.ok outputs =>
          (FuncOutcome.hit outputs,
            { st with index := markSeen st.index relative, cache_hit := st.cache_hit + 1 }, [])
      else
        let r := cacheMiss hash version do_cache_write transform st relative input_hash
        (r.1, r.2, [])
    | none =>
      let r := cacheMiss hash version do_cache_write transform st relative input_hash
      (r.1, r.2, [])

/-! ## Reconciliation (`finish`) -/

/-- Concatenate a list of lists (used for stating list-of-lists results). -/
def listJoin {α : Type} : List (List α) → List α
  | [] => []
  | l :: ls => l ++ listJoin ls

/-- Does one new-entry file record match an old file record by
(relative path, output hash)? -/
def fileMatches (old_file nf : FileRec) : Bool :=
  nf.relative == old_file.relative && nf.output_hash == old_file.output_hash

/-- `delete new_file.contents; delete new_file.needs_write` applied to
every record matching the old file. -/
def clearMatches (old_file : FileRec) (files : List FileRec) : List FileRec :=
  files.map fun nf =>
    if fileMatches old_file nf then { nf with contents := none, needs_write := false } else nf

/-- The on-disk filenames of every output record of an entry. -/
def entryAllFilenames (cache_folder : String) (e : CacheEntry) : List String :=
  e.files.map fun f => recordToFilename2 cache_folder e f

/-- One step of the old-vs-new per-file comparison loop: accumulator is
(the new entry's file records, the `all_unchanged` flag, the prune
filenames queued so far). -/
def reconcileFilesStep (cache_folder : String) (old_entry : CacheEntry)
    (acc : List FileRec × Bool × List String) (old_file : FileRec) :
    List FileRec × Bool × List String :=
  if acc.1.any (fileMatches old_file) then
    (clearMatches old_file acc.1, acc.2.1, acc.2.2)
  else
    (acc.1, false, acc.2.2 ++ [recordToFilename2 cache_folder old_entry old_file])

/-- The per-file comparison of an old entry against the new entry's file
records (the inner loop of `finish` when old and new entries share the
input hash). -/
def reconcileFiles (cache_folder : String) (old_entry : CacheEntry)
    (new_files : List FileRec) : List FileRec × Bool × List String :=
  old_entry.files.foldl (reconcileFilesStep cache_folder old_entry) (new_files, true, [])

/-- Reconciliation state: the new index being finalized, the queued
prune filenames, and the `unchanged` counter. -/
structure ReconcileState where
  new_index : Index
  to_prune : List String
  unchanged : Nat
deriving DecidableEq

/-- Processing of a single old-index entry inside `finish`'s main loop. -/
def reconcileStep (cache_folder : String) (version : Nat) (do_cache_rebuild : Bool)
    (st : ReconcileState) (old_entry : CacheEntry) : ReconcileState :=
  match lookupEntry st.new_index old_entry.relative with
  | none =>
    if old_entry.ver ≠ version then
      { st with to_prune := st.to_prune ++ entryAllFilenames cache_folder old_entry }
    else if do_cache_rebuild && !old_entry.seen then
      { st with to_prune := st.to_prune ++ entryAllFilenames cache_folder old_entry }
    else
      { st with new_index := setEntry st.new_index old_entry, unchanged := st.unchanged + 1 }
  | some new_entry =>
    if old_entry.input_hash = new_entry.input_hash then
      let r := reconcileFiles cache_folder old_entry new_entry.files
      { st with new_index := setEntry st.new_index { new_entry with files := r.1 },
                to_prune := st.to_prune ++ r.2.2,
                unchanged := st.unchanged + (if r.2.1 then 1 else 0) }
    else
      { st with to_prune := st.to_prune ++ entryAllFilenames cache_folder old_entry }

/-- The main reconciliation loop of `finish`: fold the old index into
the new index, queueing prunes and counting unchanged entries. -/
def reconcile (cache_folder : String) (version : Nat) (do_cache_rebuild : Bool)
    (old_index new_index : Index) : ReconcileState :=
  old_index.foldl (reconcileStep cache_folder version do_cache_rebuild)
    { new_index := new_index, to_prune := [], unchanged := 0 }

/-- The writes an entry contributes: every file record still flagged
`needs_write`, written to its cache filename with its captured bytes. -/
def entryWrites (cache_folder : String) (e : CacheEntry) : List (String × Bytes) :=
  e.files.filterMap fun f =>
    if f.needs_write then some (recordToFilename2 cache_folder e f, f.contents.getD []) else none

/-- All files written by the write-out loop of `finish`. -/
def writeList (cache_folder : String) (idx : Index) : List (String × Bytes) :=
  listJoin (idx.map (entryWrites cache_folder))

/-- After writing, `finish` drops the transient bytes and flag of every
written record. -/
def clearWritten (idx : Index) : Index :=
  idx.map fun e =>
    { e with files := e.files.map fun f =>
        if f.needs_write then { f with needs_write := false, contents := none } else f }

/-! ## Index serialization -/

/-- Decimal digit character. -/
def digitChar (d : Nat) : Char := Char.ofNat (48 + d)

/-- Little-endian decimal digit characters of `n`, with `fuel` bounding
the recursion depth. -/
def digitsRev : Nat → Nat → List Char
  | 0, _ => []
  | _ + 1, 0 => []
  | fuel + 1, n => digitChar (n % 10) :: digitsRev fuel (n / 10)

/-- `String(n)` for a natural number, as characters. -/
def natToChars (n : Nat) : List Char :=
  if n = 0 then ['0'] else (digitsRev n n).reverse

/-- `Number(s)` on the digit strings produced by serialization. -/
def parseNatChars (l : List Char) : Nat :=
  l.foldl (fun a c => a * 10 + (c.toNat - 48)) 0

def parseNatS (s : String) : Nat := parseNatChars s.data

/-- `fields.join(sep)` on character lists. -/
def joinChars (sep : Char) : List (List Char) → List Char
  | [] => []
  | [f] => f
  | f :: g :: rest => f ++ sep :: joinChars sep (g :: rest)

/-- `s.split(sep)` on character lists. -/
def splitChars (sep : Char) : List Char → List (List Char)
  | [] => [[]]
  | c :: cs =>
    match splitChars sep cs with
    | [] => [[c]]
    | f :: rest => if c = sep then [] :: f :: rest else (c :: f) :: rest

/-- The field list of one serialized index line: `relative`, the task
version, `input_hash`, then the outputs; an output whose relative path
equals the entry's own is spliced in as a lone hash at position 3, any
other output is pushed as an explicit relative-path/hash pair. -/
def serializeStep (record : CacheEntry) (line : List String) (file_entry : FileRec) :
    List String :=
  if file_entry.relative = record.relative then
    line.take 3 ++ file_entry.output_hash :: line.drop 3
  else
    line ++ [file_entry.relative, file_entry.output_hash]

def serializeFields (version : Nat) (record : CacheEntry) : List String :=
  record.files.foldl (serializeStep record)
    [record.relative, String.mk (natToChars version), record.input_hash]

/-- One serialized index line (fields joined with `;`). -/
def serializeLine (version : Nat) (record : CacheEntry) : String :=
  String.mk (joinChars ';' ((serializeFields version record).map String.data))

/-- Decode the trailing output fields as relative-path/hash pairs. -/
def parsePairs : List String → List FileRec
  | a :: b :: rest => { relative := a, output_hash := b } :: parsePairs rest
  | [a] => [{ relative := a, output_hash := "" }]
  | [] => []

/-- Decode one line's fields into a cache entry: an odd number of
trailing fields signals that the first of them is the identity output's
hash.  Lines with fewer than three fields never occur in a written
index and are skipped. -/
def parseLineFields (fields : List String) : Option CacheEntry :=
  match fields with
  | relative :: ver :: input_hash :: outputs =>
    let idFiles : List FileRec :=
      if outputs.length % 2 = 1 then [{ relative := relative, output_hash := outputs.headD "" }]
      else []
    let rest := if outputs.length % 2 = 1 then outputs.tail else outputs
    some { relative := relative, ver := parseNatS ver, input_hash := input_hash,
           files := idFiles ++ parsePairs rest }
  | _ => none

/-- Decode one index line. -/
def parseLine (s : String) : Option CacheEntry :=
  parseLineFields ((splitChars ';' s.data).map String.mk)

/-- Decode a whole index file: split into lines, skip blank lines and
comment lines, insert every decoded entry. -/
def parseIndexData (data : String) : Index :=
  ((splitChars '\x0a' data.data).map String.mk).foldl
    (fun idx line =>
      if line = "" then idx
      else if String.startsWith line "//" then idx
      else
        match parseLine line with
        | some e => setEntry idx e
        | none => idx)
    []

/-- `init`'s index load: a missing or unreadable index file (read error,
modelled as `none`) or an empty one yields an empty index. -/
def loadIndex (file : Option String) : Index :=
  match file with
  | none => []
  | some data => if data = "" then [] else parseIndexData data

/-- JS `Array.prototype.sort` comparison on the key strings, by code
points. -/
def charListLt : List Char → List Char → Bool
  | [], [] => false
  | [], _ :: _ => true
  | _ :: _, [] => false
  | a :: as, b :: bs =>
    if a.toNat < b.toNat then true
    else if b.toNat < a.toNat then false
    else charListLt as bs

def insertSorted (e : CacheEntry) : Index → Index
  | [] => [e]
  | x :: xs =>
    if charListLt e.relative.data x.relative.data then e :: x :: xs else x :: insertSorted e xs

def sortByRelative (l : Index) : Index := l.foldr insertSorted []

/-- The serialized index text: one line per entry, sorted by relative
path, joined by newlines. -/
def serializeIndex (version : Nat) (idx : Index) : String :=
  String.mk (joinChars '\x0a' (((sortByRelative idx).map fun e => serializeLine version e).map
    String.data))

/-- The observable effects of `finish`: whether the update block ran,
the final index, the files written (path and bytes), the serialized
index text written (if any), the queued prune list, and the counters. -/
structure FinishResult where
  updated : Bool
  final_index : Index
  writes : List (String × Bytes)
  new_files : Nat
  index_written : Option String
  to_prune : List String
  unchanged : Nat
deriving DecidableEq

/-- `finish`: when the new index is non-empty or rebuild mode is on,
reconcile, write out every file still flagged `needs_write`, write the
new index text, and prune; otherwise do nothing at all. -/
def finish (cache_folder : String) (version : Nat) (do_cache_rebuild : Bool)
    (old_index new_index : Index) : FinishResult :=
  if new_index.isEmpty && !do_cache_rebuild then
    { updated := false, final_index := new_index, writes := [], new_files := 0,
      index_written := none, to_prune := [], unchanged := 0 }
  else
    let st := reconcile cache_folder version do_cache_rebuild old_index new_index
    let writes := writeList cache_folder st.new_index
    let final := clearWritten st.new_index
    { updated := true, final_index := final, writes := writes, new_files := writes.length,
      index_written := some (serializeIndex version final), to_prune := st.to_prune,
      unchanged := st.unchanged }

/-! ## Helper lemmas -/

/-- A concrete digest function used to instantiate witnesses. -/
def demoHash (b : Bytes) : String :=
  String.mk (natToChars (b.foldl (fun a x => a * 10 + x + 1) 0))

/-- `cacheMiss` always yields a miss outcome, bumps the miss counter by
one and leaves the old index and the hit counter alone. -/
theorem cacheMiss_spec (hash : Bytes → String) (version : Nat) (dcw : Bool)
    (transform : Except String (List OutFile)) (st : FuncState)
    (relative input_hash : String) :
    isMissOutcome (cacheMiss hash version dcw transform st relative input_hash).1 = true ∧
    (cacheMiss hash version dcw transform st relative input_hash).2.cache_miss
      = st.cache_miss + 1 ∧
    (cacheMiss hash version dcw transform st relative input_hash).2.index = st.index ∧
    (cacheMiss hash version dcw transform st relative input_hash).2.cache_hit
      = st.cache_hit := by
  unfold cacheMiss
  cases transform with
  | error e => exact ⟨rfl, rfl, rfl, rfl⟩
  | ok outs =>
    cases dcw with
    | false => exact ⟨rfl, rfl, rfl, rfl⟩
    | true => exact ⟨rfl, rfl, rfl, rfl⟩

/-- Successful cache reads deliver, file by file, exactly the bytes on
disk at the record's cache path, verified against the recorded hash. -/
theorem readCachedFiles_ok_spec (hash : Bytes → String) (fs : String → Option Bytes)
    (cache_folder : String) (record : CacheEntry) :
    ∀ (files : List FileRec) (outs : List OutFile),
    readCachedFiles hash fs cache_folder record files = Except.ok outs →
    List.Forall₂ (fun (fe : FileRec) (o : OutFile) =>
      o.relative = fe.relative ∧ hash o.contents = fe.output_hash ∧
      fs (recordToFilename2 cache_folder record fe) = some o.contents) files outs := by
  intro files
  induction files with
  | nil =>
    intro outs h
    simp only [readCachedFiles] at h
    cases h
    exact List.Forall₂.nil
  | cons fe rest ih =>
    intro outs h
    simp only [readCachedFiles] at h
    cases hfs : fs (recordToFilename2 cache_folder record fe) with
    | none => simp only [hfs] at h; cases h
    | some buffer =>
      simp only [hfs] at h
      by_cases hb : hash buffer = fe.output_hash
      · rw [if_neg (not_not_intro hb)] at h
        cases hr : readCachedFiles hash fs cache_folder record rest with
        | error e => simp only [hr] at h; cases h
        | ok outs2 =>
          simp only [hr] at h
          cases h
          exact List.Forall₂.cons ⟨rfl, hb, hfs⟩ (ih outs2 hr)
      · rw [if_pos hb] at h
        cases h

/-- If any file of the entry is unreadable or fails hash verification,
the whole read fails, with the error naming the first offending path. -/
theorem readCachedFiles_error_of_exists (hash : Bytes → String) (fs : String → Option Bytes)
    (cache_folder : String) (record : CacheEntry) :
    ∀ files : List FileRec,
    (∃ fe ∈ files, fs (recordToFilename2 cache_folder record fe) = none ∨
        ∃ b, fs (recordToFilename2 cache_folder record fe) = some b ∧
          hash b ≠ fe.output_hash) →
    ∃ fe ∈ files,
      (fs (recordToFilename2 cache_folder record fe) = none ∧
        readCachedFiles hash fs cache_folder record files
          = Except.error (CacheWarn.loadFail (recordToFilename2 cache_folder record fe))) ∨
      (∃ b, fs (recordToFilename2 cache_folder record fe) = some b ∧ hash b ≠ fe.output_hash ∧
        readCachedFiles hash fs cache_folder record files
          = Except.error (CacheWarn.corrupt (recordToFilename2 cache_folder record fe)
              fe.output_hash (hash b))) := by
  intro files
  induction files with
  | nil =>
    rintro ⟨fe, hmem, _⟩
    simp at hmem
  | cons fe rest ih =>
    rintro ⟨fe0, hmem, hf0⟩
    cases hfs : fs (recordToFilename2 cache_folder record fe) with
    | none =>
      refine ⟨fe, List.mem_cons_self fe rest, Or.inl ⟨hfs, ?_⟩⟩
      simp only [readCachedFiles, hfs]
    | some buffer =>
      by_cases hb : hash buffer = fe.output_hash
      · have hrest : ∃ fe2 ∈ rest,
            fs (recordToFilename2 cache_folder record fe2) = none ∨
            ∃ b, fs (recordToFilename2 cache_folder record fe2) = some b ∧
              hash b ≠ fe2.output_hash := by
          rcases List.mem_cons.mp hmem with rfl | hm
          · rcases hf0 with h | ⟨b, hsome, hneq⟩
            · rw [hfs] at h; cases h
            · rw [hfs] at hsome; cases hsome; exact absurd hb hneq
          · exact ⟨fe0, hm, hf0⟩
        obtain ⟨fe2, hm2, hcase⟩ := ih hrest
        refine ⟨fe2, List.mem_cons_of_mem fe hm2, ?_⟩
        rcases hcase with ⟨hnone, herr⟩ | ⟨b, hsome, hneq, herr⟩
        · exact Or.inl ⟨hnone, by
            simp only [readCachedFiles, hfs, if_neg (not_not_intro hb), herr]⟩
        · exact Or.inr ⟨b, hsome, hneq, by
            simp only [readCachedFiles, hfs, if_neg (not_not_intro hb), herr]⟩
      · refine ⟨fe, List.mem_cons_self fe rest, Or.inr ⟨buffer, hfs, hb, ?_⟩⟩
        simp only [readCachedFiles, hfs, if_pos hb]

/-! ## Per-entry characterization of reconciliation

`finish`'s main loop folds over the old index while mutating the new
index, but distinct old entries touch distinct keys, so each old
entry's effect depends only on the original new index.  The following
per-entry functions state that effect, and `reconcile_fold_spec` proves
the decomposition. -/

/-- The prune-queue contribution of one old entry. -/
def entryPrunes (cache_folder : String) (version : Nat) (rebuild : Bool)
    (nidx : Index) (e : CacheEntry) : List String :=
  match lookupEntry nidx e.relative with
  | none =>
    if e.ver ≠ version then entryAllFilenames cache_folder e
    else if rebuild && !e.seen then entryAllFilenames cache_folder e
    else []
  | some ne =>
    if e.input_hash = ne.input_hash then (reconcileFiles cache_folder e ne.files).2.2
    else entryAllFilenames cache_folder e

/-- The `unchanged`-counter contribution of one old entry. -/
def entryUnchangedCount (cache_folder : String) (version : Nat) (rebuild : Bool)
    (nidx : Index) (e : CacheEntry) : Nat :=
  match lookupEntry nidx e.relative with
  | none =>
    if e.ver ≠ version then 0
    else if rebuild && !e.seen then 0
    else 1
  | some ne =>
    if e.input_hash = ne.input_hash then
      (if (reconcileFiles cache_folder e ne.files).2.1 then 1 else 0)
    else 0

/-- What the final index holds at one old entry's key. -/
def entryFinal (cache_folder : String) (version : Nat) (rebuild : Bool)
    (nidx : Index) (e : CacheEntry) : Option CacheEntry :=
  match lookupEntry nidx e.relative with
  | none =>
    if e.ver ≠ version then none
    else if rebuild && !e.seen then none
    else some e
  | some ne =>
    if e.input_hash = ne.input_hash then
      some { ne with files := (reconcileFiles cache_folder e ne.files).1 }
    else some ne

theorem lookupEntry_setEntry (idx : Index) (e : CacheEntry) (r : String) :
    lookupEntry (setEntry idx e) r
      = if r = e.relative then some e else lookupEntry idx r := by
  induction idx with
  | nil =>
    by_cases h : r = e.relative
    · simp [setEntry, lookupEntry, h]
    · simp [setEntry, lookupEntry, h, Ne.symm h]
  | cons o rest ih =>
    by_cases ho : o.relative = e.relative
    · by_cases hr : r = e.relative
      · simp [setEntry, lookupEntry, ho, hr]
      · have hor : ¬o.relative = r := by rw [ho]; exact Ne.symm hr
        simp [setEntry, lookupEntry, ho, hr, Ne.symm hr, hor]
    · by_cases hor : o.relative = r
      · have hr : ¬r = e.relative := fun hh => ho (hor.trans hh)
        simp [setEntry, lookupEntry, ho, hor, hr]
      · simp [setEntry, lookupEntry, ho, hor, ih]

theorem lookupEntry_relative (idx : Index) (r : String) (x : CacheEntry)
    (h : lookupEntry idx r = some x) : x.relative = r := by
  induction idx with
  | nil => cases h
  | cons o rest ih =>
    by_cases ho : o.relative = r
    · simp only [lookupEntry, if_pos ho] at h
      cases h
      exact ho
    · simp only [lookupEntry, if_neg ho] at h
      exact ih h

theorem lookupEntry_mem (idx : Index) (r : String) (x : CacheEntry)
    (h : lookupEntry idx r = some x) : x ∈ idx := by
  induction idx with
  | nil => cases h
  | cons o rest ih =>
    by_cases ho : o.relative = r
    · simp only [lookupEntry, if_pos ho] at h
      cases h
      exact List.mem_cons_self _ _
    · simp only [lookupEntry, if_neg ho] at h
      exact List.mem_cons_of_mem o (ih h)

theorem reconcileStep_to_prune (cache_folder : String) (version : Nat) (rebuild : Bool)
    (nidx : Index) (st : ReconcileState) (e : CacheEntry)
    (hlook : lookupEntry st.new_index e.relative = lookupEntry nidx e.relative) :
    (reconcileStep cache_folder version rebuild st e).to_prune
      = st.to_prune ++ entryPrunes cache_folder version rebuild nidx e := by
  cases hn : lookupEntry nidx e.relative with
  | none =>
    simp only [reconcileStep, entryPrunes, hlook, hn]
    split_ifs <;> simp
  | some ne =>
    simp only [reconcileStep, entryPrunes, hlook, hn]
    split_ifs <;> simp

theorem reconcileStep_unchanged (cache_folder : String) (version : Nat) (rebuild : Bool)
    (nidx : Index) (st : ReconcileState) (e : CacheEntry)
    (hlook : lookupEntry st.new_index e.relative = lookupEntry nidx e.relative) :
    (reconcileStep cache_folder version rebuild st e).unchanged
      = st.unchanged + entryUnchangedCount cache_folder version rebuild nidx e := by
  cases hn : lookupEntry nidx e.relative with
  | none =>
    simp only [reconcileStep, entryUnchangedCount, hlook, hn]
    split_ifs <;> simp
  | some ne =>
    simp only [reconcileStep, entryUnchangedCount, hlook, hn]
    split_ifs <;> simp

theorem reconcileStep_lookup_ne (cache_folder : String) (version : Nat) (rebuild : Bool)
    (st : ReconcileState) (e : CacheEntry) (r : String) (hr : r ≠ e.relative) :
    lookupEntry (reconcileStep cache_folder version rebuild st e).new_index r
      = lookupEntry st.new_index r := by
  cases hn : lookupEntry st.new_index e.relative with
  | none =>
    simp only [reconcileStep, hn]
    split_ifs <;> simp [lookupEntry_setEntry, hr]
  | some ne =>
    have hrel : ne.relative = e.relative := lookupEntry_relative _ _ _ hn
    simp only [reconcileStep, hn]
    split_ifs <;> simp [lookupEntry_setEntry, hrel, hr]

theorem reconcileStep_lookup_self (cache_folder : String) (version : Nat) (rebuild : Bool)
    (nidx : Index) (st : ReconcileState) (e : CacheEntry)
    (hlook : lookupEntry st.new_index e.relative = lookupEntry nidx e.relative) :
    lookupEntry (reconcileStep cache_folder version rebuild st e).new_index e.relative
      = entryFinal cache_folder version rebuild nidx e := by
  cases hn : lookupEntry nidx e.relative with
  | none =>
    simp only [reconcileStep, entryFinal, hlook, hn]
    split_ifs <;> simp [lookupEntry_setEntry, hlook, hn]
  | some ne =>
    have hrel : ne.relative = e.relative := lookupEntry_relative nidx e.relative ne hn
    simp only [reconcileStep, entryFinal, hlook, hn]
    split_ifs <;> simp [lookupEntry_setEntry, hrel, hlook, hn]

/-- Decomposition of the reconciliation fold: with distinct old-entry
keys, the prune queue is the concatenation of per-entry contributions,
the `unchanged` counter the sum, keys outside the old index are
untouched, and the final index at each old key is `entryFinal`. -/
theorem reconcile_fold_spec (cache_folder : String) (version : Nat) (rebuild : Bool)
    (nidx : Index) :
    ∀ (olds : List CacheEntry) (st : ReconcileState),
    (∀ e ∈ olds, lookupEntry st.new_index e.relative = lookupEntry nidx e.relative) →
    (olds.map CacheEntry.relative).Nodup →
    (olds.foldl (reconcileStep cache_folder version rebuild) st).to_prune
        = st.to_prune ++ listJoin (olds.map (entryPrunes cache_folder version rebuild nidx))
    ∧ (olds.foldl (reconcileStep cache_folder version rebuild) st).unchanged
        = st.unchanged + (olds.map (entryUnchangedCount cache_folder version rebuild nidx)).sum
    ∧ (∀ r, r ∉ olds.map CacheEntry.relative →
        lookupEntry (olds.foldl (reconcileStep cache_folder version rebuild) st).new_index r
          = lookupEntry st.new_index r)
    ∧ (∀ e ∈ olds,
        lookupEntry (olds.foldl (reconcileStep cache_folder version rebuild) st).new_index
          e.relative = entryFinal cache_folder version rebuild nidx e) := by
  intro olds
  induction olds with
  | nil =>
    intro st h hnodup
    refine ⟨by simp [listJoin], by simp, fun r hr => rfl, fun e he => ?_⟩
    simp at he
  | cons e rest ih =>
    intro st h hnodup
    have he_look : lookupEntry st.new_index e.relative = lookupEntry nidx e.relative :=
      h e (List.mem_cons_self e rest)
    have hmap : (e :: rest).map CacheEntry.relative
        = e.relative :: rest.map CacheEntry.relative := rfl
    rw [hmap] at hnodup
    obtain ⟨hnotin, hnodup_rest⟩ := List.nodup_cons.mp hnodup
    have hrest : ∀ x ∈ rest,
        lookupEntry (reconcileStep cache_folder version rebuild st e).new_index x.relative
          = lookupEntry nidx x.relative := by
      intro x hx
      have hne : x.relative ≠ e.relative := by
        intro hEq
        exact hnotin (hEq ▸ List.mem_map_of_mem CacheEntry.relative hx)
      rw [reconcileStep_lookup_ne cache_folder version rebuild st e x.relative hne]
      exact h x (List.mem_cons_of_mem e hx)
    obtain ⟨ih1, ih2, ih3, ih4⟩ :=
      ih (reconcileStep cache_folder version rebuild st e) hrest hnodup_rest
    have hfold : (e :: rest).foldl (reconcileStep cache_folder version rebuild) st
        = rest.foldl (reconcileStep cache_folder version rebuild)
            (reconcileStep cache_folder version rebuild st e) := rfl
    refine ⟨?_, ?_, ?_, ?_⟩
    · rw [hfold, ih1,
        reconcileStep_to_prune cache_folder version rebuild nidx st e he_look]
      simp [listJoin]
    · rw [hfold, ih2,
        reconcileStep_unchanged cache_folder version rebuild nidx st e he_look]
      simp [Nat.add_assoc]
    · intro r hr
      have hr1 : r ≠ e.relative := by
        intro hEq
        exact hr (hEq ▸ List.mem_cons_self e.relative (rest.map CacheEntry.relative))
      have hr2 : r ∉ rest.map CacheEntry.relative := by
        intro hm
        exact hr (List.mem_cons_of_mem e.relative hm)
      rw [hfold, ih3 r hr2,
        reconcileStep_lookup_ne cache_folder version rebuild st e r hr1]
    · intro x hx
      rcases List.mem_cons.mp hx with rfl | hx2
      · rw [hfold, ih3 x.relative hnotin,
          reconcileStep_lookup_self cache_folder version rebuild nidx st x he_look]
      · rw [hfold]
        exact ih4 x hx2

/-- The decomposition specialized to `reconcile` itself. -/
theorem reconcile_spec (cache_folder : String) (version : Nat) (rebuild : Bool)
    (old_index new_index : Index)
    (hnodup : (old_index.map CacheEntry.relative).Nodup) :
    (reconcile cache_folder version rebuild old_index new_index).to_prune
        = listJoin (old_index.map (entryPrunes cache_folder version rebuild new_index))
    ∧ (reconcile cache_folder version rebuild old_index new_index).unchanged
        = (old_index.map (entryUnchangedCount cache_folder version rebuild new_index)).sum
    ∧ (∀ r, r ∉ old_index.map CacheEntry.relative →
        lookupEntry (reconcile cache_folder version rebuild old_index new_index).new_index r
          = lookupEntry new_index r)
    ∧ (∀ e ∈ old_index,
        lookupEntry (reconcile cache_folder version rebuild old_index new_index).new_index
          e.relative = entryFinal cache_folder version rebuild new_index e) := by
  have h := reconcile_fold_spec cache_folder version rebuild new_index old_index
    { new_index := new_index, to_prune := [], unchanged := 0 }
    (fun e he => rfl) hnodup
  obtain ⟨h1, h2, h3, h4⟩ := h
  exact ⟨by simpa using h1, by simpa using h2, h3, h4⟩

theorem mem_listJoin_of_mem {α : Type} {l : List (List α)} {xs : List α} {x : α}
    (hxs : xs ∈ l) (hx : x ∈ xs) : x ∈ listJoin l := by
  induction l with
  | nil => simp at hxs
  | cons ys rest ih =>
    rcases List.mem_cons.mp hxs with rfl | h2
    · exact List.mem_append_left _ hx
    · exact List.mem_append_right _ (ih h2)

theorem mem_writeList (cache_folder : String) (idx : Index) (e : CacheEntry) (nf : FileRec)
    (he : e ∈ idx) (hnf : nf ∈ e.files) (hw : nf.needs_write = true) :
    (recordToFilename2 cache_folder e nf, nf.contents.getD []) ∈ writeList cache_folder idx := by
  have h1 : (recordToFilename2 cache_folder e nf, nf.contents.getD [])
      ∈ entryWrites cache_folder e :=
    List.mem_filterMap.mpr ⟨nf, hnf, by rw [if_pos hw]⟩
  exact mem_listJoin_of_mem (List.mem_map_of_mem (entryWrites cache_folder) he) h1

/-- The persistent identity of a file record. -/
def filePair (f : FileRec) : String × String := (f.relative, f.output_hash)

theorem any_fileMatches_iff (o : FileRec) (fs : List FileRec) :
    fs.any (fileMatches o) = true
      ↔ ∃ nf ∈ fs, nf.relative = o.relative ∧ nf.output_hash = o.output_hash := by
  simp [List.any_eq_true, fileMatches]

theorem clearMatches_pairs (o : FileRec) (fs : List FileRec) :
    (clearMatches o fs).map filePair = fs.map filePair := by
  induction fs with
  | nil => rfl
  | cons f rest ih =>
    simp only [clearMatches, List.map_cons] at *
    refine congrArg₂ List.cons ?_ ih
    by_cases h : fileMatches o f = true
    · rw [if_pos h]
      rfl
    · rw [if_neg h]

theorem any_fileMatches_congr (o : FileRec) (fs gs : List FileRec)
    (h : fs.map filePair = gs.map filePair) :
    fs.any (fileMatches o) = gs.any (fileMatches o) := by
  induction fs generalizing gs with
  | nil =>
    cases gs with
    | nil => rfl
    | cons g gr => simp at h
  | cons f fr ih =>
    cases gs with
    | nil => simp at h
    | cons g gr =>
      simp only [List.map_cons, List.cons.injEq] at h
      have hfg : fileMatches o f = fileMatches o g := by
        have h1 : f.relative = g.relative := congrArg Prod.fst h.1
        have h2 : f.output_hash = g.output_hash := congrArg Prod.snd h.1
        simp [fileMatches, h1, h2]
      simp [List.any_cons, hfg, ih gr h.2]

theorem reconcileFilesStep_pairs (cache_folder : String) (oe : CacheEntry)
    (acc : List FileRec × Bool × List String) (f : FileRec) :
    ((reconcileFilesStep cache_folder oe acc f).1).map filePair = acc.1.map filePair := by
  unfold reconcileFilesStep
  split_ifs
  · exact clearMatches_pairs f acc.1
  · rfl

theorem reconcileFilesFold_pairs (cache_folder : String) (oe : CacheEntry) :
    ∀ (olds : List FileRec) (acc : List FileRec × Bool × List String),
    ((olds.foldl (reconcileFilesStep cache_folder oe) acc).1).map filePair
      = acc.1.map filePair := by
  intro olds
  induction olds with
  | nil => intro acc; rfl
  | cons f rest ih =>
    intro acc
    have h := ih (reconcileFilesStep cache_folder oe acc f)
    exact h.trans (reconcileFilesStep_pairs cache_folder oe acc f)

theorem reconcileFilesFold_prune_mono (cache_folder : String) (oe : CacheEntry) :
    ∀ (olds : List FileRec) (acc : List FileRec × Bool × List String) (x : String),
    x ∈ acc.2.2 → x ∈ (olds.foldl (reconcileFilesStep cache_folder oe) acc).2.2 := by
  intro olds
  induction olds with
  | nil => intro acc x hx; exact hx
  | cons f rest ih =>
    intro acc x hx
    refine ih (reconcileFilesStep cache_folder oe acc f) x ?_
    unfold reconcileFilesStep
    split_ifs
    · exact hx
    · exact List.mem_append_left _ hx

theorem mem_listJoin {α : Type} (l : List (List α)) (x : α) (hx : x ∈ listJoin l) :
    ∃ xs ∈ l, x ∈ xs := by
  induction l with
  | nil => simp [listJoin] at hx
  | cons ys rest ih =>
    rcases List.mem_append.mp hx with h | h
    · exact ⟨ys, List.mem_cons_self ys rest, h⟩
    · obtain ⟨xs, hxs, hx2⟩ := ih h
      exact ⟨xs, List.mem_cons_of_mem ys hxs, hx2⟩

/-- The prune contribution of the per-file comparison, exactly: the
cache filenames of precisely those old files with no identical
(relative path, output hash) counterpart among the captured records. -/
theorem reconcileFiles_prunes_eq (cache_folder : String) (oe : CacheEntry)
    (new_files : List FileRec) :
    (reconcileFiles cache_folder oe new_files).2.2
      = (oe.files.filter (fun of => !(new_files.any (fileMatches of)))).map
          (recordToFilename2 cache_folder oe) := by
  unfold reconcileFiles
  have aux : ∀ (olds : List FileRec) (acc : List FileRec × Bool × List String),
      acc.1.map filePair = new_files.map filePair →
      (olds.foldl (reconcileFilesStep cache_folder oe) acc).2.2
        = acc.2.2 ++ (olds.filter (fun of => !(new_files.any (fileMatches of)))).map
            (recordToFilename2 cache_folder oe) := by
    intro olds
    induction olds with
    | nil => intro acc _; simp
    | cons f rest ih =>
      intro acc hpairs
      have hany_eq : acc.1.any (fileMatches f) = new_files.any (fileMatches f) :=
        any_fileMatches_congr f acc.1 new_files hpairs
      rw [List.foldl_cons, List.filter_cons]
      by_cases h : acc.1.any (fileMatches f) = true
      · have hstep : reconcileFilesStep cache_folder oe acc f
            = (clearMatches f acc.1, acc.2.1, acc.2.2) := by
          unfold reconcileFilesStep
          rw [if_pos h]
        have hcond : (!(new_files.any (fileMatches f))) = false := by
          rw [← hany_eq, h]
          rfl
        rw [if_neg (by rw [hcond]; exact Bool.false_ne_true), hstep,
          ih (clearMatches f acc.1, acc.2.1, acc.2.2)
            ((clearMatches_pairs f acc.1).trans hpairs)]
      · have h2 : acc.1.any (fileMatches f) = false := Bool.eq_false_iff.mpr h
        have hstep : reconcileFilesStep cache_folder oe acc f
            = (acc.1, false, acc.2.2 ++ [recordToFilename2 cache_folder oe f]) := by
          unfold reconcileFilesStep
          rw [if_neg h]
        have hcond : (!(new_files.any (fileMatches f))) = true := by
          rw [← hany_eq, h2]
          rfl
        rw [if_pos hcond, hstep,
          ih (acc.1, false, acc.2.2 ++ [recordToFilename2 cache_folder oe f]) hpairs]
        simp
  exact aux oe.files (new_files, true, []) rfl

/-- Every queued prune filename of one old entry is the cache filename
of one of that entry's own output records. -/
theorem entryPrunes_subset (cache_folder : String) (version : Nat) (rebuild : Bool)
    (nidx : Index) (e : CacheEntry) :
    ∀ p ∈ entryPrunes cache_folder version rebuild nidx e,
      ∃ f ∈ e.files, p = recordToFilename2 cache_folder e f := by
  intro p hp
  cases hn : lookupEntry nidx e.relative with
  | none =>
    simp only [entryPrunes, hn] at hp
    split_ifs at hp
    · obtain ⟨f, hf, rfl⟩ := List.mem_map.mp hp
      exact ⟨f, hf, rfl⟩
    · obtain ⟨f, hf, rfl⟩ := List.mem_map.mp hp
      exact ⟨f, hf, rfl⟩
    · simp at hp
  | some ne =>
    simp only [entryPrunes, hn] at hp
    split_ifs at hp
    · rw [reconcileFiles_prunes_eq] at hp
      obtain ⟨f, hf, rfl⟩ := List.mem_map.mp hp
      exact ⟨f, (List.mem_filter.mp hf).1, rfl⟩
    · obtain ⟨f, hf, rfl⟩ := List.mem_map.mp hp
      exact ⟨f, hf, rfl⟩

theorem clearMatches_keep (o nf : FileRec) (fs : List FileRec)
    (hm : fileMatches o nf = false) (h : nf ∈ fs) : nf ∈ clearMatches o fs := by
  have hmap := List.mem_map_of_mem
    (fun x => if fileMatches o x then { x with contents := none, needs_write := false }
              else x) h
  have hval : (fun x => if fileMatches o x then
        { x with contents := none, needs_write := false } else x) nf = nf := by
    simp only [hm, Bool.false_eq_true, if_false]
  rw [hval] at hmap
  exact hmap

/-- A captured record matched by no old file survives the per-file
comparison untouched (in particular it keeps its `needs_write` flag and
its bytes). -/
theorem reconcileFiles_keep (cache_folder : String) (oe : CacheEntry)
    (new_files : List FileRec) (nf : FileRec) (hnf : nf ∈ new_files)
    (hnone : ∀ of ∈ oe.files, fileMatches of nf = false) :
    nf ∈ (reconcileFiles cache_folder oe new_files).1 := by
  unfold reconcileFiles
  have aux : ∀ (olds : List FileRec) (acc : List FileRec × Bool × List String),
      nf ∈ acc.1 → (∀ of ∈ olds, fileMatches of nf = false) →
      nf ∈ (olds.foldl (reconcileFilesStep cache_folder oe) acc).1 := by
    intro olds
    induction olds with
    | nil => intro acc h _; exact h
    | cons f rest ih =>
      intro acc h hno
      refine ih (reconcileFilesStep cache_folder oe acc f) ?_
        (fun of hof => hno of (List.mem_cons_of_mem f hof))
      unfold reconcileFilesStep
      split_ifs
      · exact clearMatches_keep f nf acc.1 (hno f (List.mem_cons_self f rest)) h
      · exact h
  exact aux oe.files (new_files, true, []) hnf hnone

/-- A new-entry file list is "cleared for" an old file when every record
matching it carries no captured bytes and no `needs_write` flag. -/
def isClearedFor (o : FileRec) (fs : List FileRec) : Prop :=
  ∀ nf ∈ fs, fileMatches o nf = true → nf.needs_write = false ∧ nf.contents = none

theorem isClearedFor_clearMatches_self (o : FileRec) (fs : List FileRec) :
    isClearedFor o (clearMatches o fs) := by
  intro nf hnf hm
  obtain ⟨nf0, hnf0, rfl⟩ := List.mem_map.mp hnf
  by_cases h : fileMatches o nf0 = true
  · rw [if_pos h]
    exact ⟨rfl, rfl⟩
  · rw [if_neg h]
    rw [if_neg h] at hm
    exact absurd hm h

theorem isClearedFor_clearMatches_other (o o2 : FileRec) (fs : List FileRec)
    (h : isClearedFor o fs) : isClearedFor o (clearMatches o2 fs) := by
  intro nf hnf hm
  obtain ⟨nf0, hnf0, rfl⟩ := List.mem_map.mp hnf
  by_cases h2 : fileMatches o2 nf0 = true
  · rw [if_pos h2]
    exact ⟨rfl, rfl⟩
  · rw [if_neg h2]
    rw [if_neg h2] at hm
    exact h nf0 hnf0 hm

theorem isClearedFor_step (cache_folder : String) (oe : CacheEntry) (o : FileRec)
    (acc : List FileRec × Bool × List String) (f : FileRec)
    (h : isClearedFor o acc.1) :
    isClearedFor o ((reconcileFilesStep cache_folder oe acc f).1) := by
  unfold reconcileFilesStep
  split_ifs
  · exact isClearedFor_clearMatches_other o f acc.1 h
  · exact h

theorem isClearedFor_fold (cache_folder : String) (oe : CacheEntry) (o : FileRec) :
    ∀ (olds : List FileRec) (acc : List FileRec × Bool × List String),
    isClearedFor o acc.1 →
    isClearedFor o ((olds.foldl (reconcileFilesStep cache_folder oe) acc).1) := by
  intro olds
  induction olds with
  | nil => intro acc h; exact h
  | cons f rest ih =>
    intro acc h
    exact ih (reconcileFilesStep cache_folder oe acc f)
      (isClearedFor_step cache_folder oe o acc f h)

/-- An old file with an identical counterpart among the captured new
records ends up with every matching record cleared. -/
theorem reconcileFiles_cleared (cache_folder : String) (oe : CacheEntry)
    (new_files : List FileRec) (o : FileRec) (ho : o ∈ oe.files)
    (hmatch : new_files.any (fileMatches o) = true) :
    isClearedFor o (reconcileFiles cache_folder oe new_files).1 := by
  unfold reconcileFiles
  have aux : ∀ (olds : List FileRec) (acc : List FileRec × Bool × List String),
      o ∈ olds → acc.1.any (fileMatches o) = true →
      isClearedFor o ((olds.foldl (reconcileFilesStep cache_folder oe) acc).1) := by
    intro olds
    induction olds with
    | nil => intro acc h; simp at h
    | cons f rest ih =>
      intro acc hmem hany
      rcases List.mem_cons.mp hmem with rfl | hmem2
      · have hstep : ((reconcileFilesStep cache_folder oe acc o).1)
            = clearMatches o acc.1 := by
          unfold reconcileFilesStep
          rw [if_pos hany]
        refine isClearedFor_fold cache_folder oe o rest _ ?_
        rw [hstep]
        exact isClearedFor_clearMatches_self o acc.1
      · refine ih (reconcileFilesStep cache_folder oe acc f) hmem2 ?_
        rw [any_fileMatches_congr o _ _ (reconcileFilesStep_pairs cache_folder oe acc f)]
        exact hany
  exact aux oe.files (new_files, true, []) ho hmatch

/-- An old file with no identical counterpart among the captured new
records has its cache filename queued for deletion. -/
theorem reconcileFiles_prunes (cache_folder : String) (oe : CacheEntry)
    (new_files : List FileRec) (o : FileRec) (ho : o ∈ oe.files)
    (hnomatch : new_files.any (fileMatches o) = false) :
    recordToFilename2 cache_folder oe o ∈ (reconcileFiles cache_folder oe new_files).2.2 := by
  unfold reconcileFiles
  have aux : ∀ (olds : List FileRec) (acc : List FileRec × Bool × List String),
      o ∈ olds → acc.1.any (fileMatches o) = false →
      recordToFilename2 cache_folder oe o
        ∈ ((olds.foldl (reconcileFilesStep cache_folder oe) acc).2.2) := by
    intro olds
    induction olds with
    | nil => intro acc h; simp at h
    | cons f rest ih =>
      intro acc hmem hany
      rcases List.mem_cons.mp hmem with rfl | hmem2
      · refine reconcileFilesFold_prune_mono cache_folder oe rest
          (reconcileFilesStep cache_folder oe acc o) _ ?_
        unfold reconcileFilesStep
        rw [if_neg (by rw [hany]; exact Bool.false_ne_true)]
        exact List.mem_append_right _ (List.mem_cons_self _ _)
      · refine ih (reconcileFilesStep cache_folder oe acc f) hmem2 ?_
        rw [any_fileMatches_congr o _ _ (reconcileFilesStep_pairs cache_folder oe acc f)]
        exact hany
  exact aux oe.files (new_files, true, []) ho hnomatch

/-! ## Serialization round-trip lemmas -/

theorem digitsRev_zero (fuel : Nat) : digitsRev fuel 0 = [] := by
  cases fuel <;> rfl

theorem digitChar_toNat (d : Nat) (h : d < 10) : (digitChar d).toNat = 48 + d := by
  interval_cases d <;> decide

theorem digitChar_ne_semi (d : Nat) (h : d < 10) : digitChar d ≠ ';' := by
  interval_cases d <;> decide

theorem parseNatChars_append_digit (l : List Char) (c : Char) :
    parseNatChars (l ++ [c]) = (parseNatChars l) * 10 + (c.toNat - 48) := by
  unfold parseNatChars
  rw [List.foldl_append]
  rfl

theorem digitsRev_parse : ∀ (fuel n : Nat), n ≤ fuel →
    parseNatChars (digitsRev fuel n).reverse = n := by
  intro fuel
  induction fuel with
  | zero =>
    intro n hle
    interval_cases n
    rfl
  | succ f ih =>
    intro n hle
    cases n with
    | zero => rfl
    | succ m =>
      have hrw : digitsRev (f + 1) (m + 1)
          = digitChar ((m + 1) % 10) :: digitsRev f ((m + 1) / 10) := rfl
      rw [hrw, List.reverse_cons, parseNatChars_append_digit]
      have hq : (m + 1) / 10 ≤ f := by
        have hdlt : (m + 1) / 10 < m + 1 := Nat.div_lt_self (Nat.succ_pos m) (by omega)
        omega
      rw [ih ((m + 1) / 10) hq, digitChar_toNat _ (Nat.mod_lt _ (by omega))]
      have := Nat.div_add_mod (m + 1) 10
      omega

theorem parseNatChars_natToChars (n : Nat) : parseNatChars (natToChars n) = n := by
  unfold natToChars
  by_cases h : n = 0
  · rw [if_pos h, h]
    rfl
  · rw [if_neg h]
    exact digitsRev_parse n n (Nat.le_refl n)

theorem digitsRev_mem : ∀ (fuel n : Nat) (c : Char), c ∈ digitsRev fuel n →
    ∃ d, d < 10 ∧ c = digitChar d := by
  intro fuel
  induction fuel with
  | zero =>
    intro n c hc
    simp [digitsRev] at hc
  | succ f ih =>
    intro n c hc
    cases n with
    | zero => simp [digitsRev] at hc
    | succ m =>
      have hrw : digitsRev (f + 1) (m + 1)
          = digitChar ((m + 1) % 10) :: digitsRev f ((m + 1) / 10) := rfl
      rw [hrw] at hc
      rcases List.mem_cons.mp hc with rfl | h2
      · exact ⟨(m + 1) % 10, Nat.mod_lt _ (by omega), rfl⟩
      · exact ih ((m + 1) / 10) c h2

theorem natToChars_no_semi (n : Nat) : ';' ∉ natToChars n := by
  unfold natToChars
  by_cases h : n = 0
  · rw [if_pos h]
    decide
  · rw [if_neg h]
    intro hc
    obtain ⟨d, hd, hcd⟩ := digitsRev_mem n n ';' (List.mem_reverse.mp hc)
    exact digitChar_ne_semi d hd hcd.symm

theorem splitChars_ne_nil (sep : Char) (l : List Char) : splitChars sep l ≠ [] := by
  cases l with
  | nil => simp [splitChars]
  | cons c cs =>
    cases hs : splitChars sep cs with
    | nil => simp [splitChars, hs]
    | cons f rest =>
      simp only [splitChars, hs]
      split_ifs <;> simp

theorem splitChars_no_sep (sep : Char) (f : List Char) (h : sep ∉ f) :
    splitChars sep f = [f] := by
  induction f with
  | nil => rfl
  | cons c cs ih =>
    have hc : ¬c = sep := fun hh => h (hh ▸ List.mem_cons_self c cs)
    have hcs : sep ∉ cs := fun hh => h (List.mem_cons_of_mem c hh)
    simp only [splitChars, ih hcs]
    rw [if_neg hc]

theorem splitChars_append (sep : Char) (f r : List Char) (h : sep ∉ f) :
    splitChars sep (f ++ sep :: r) = f :: splitChars sep r := by
  induction f with
  | nil =>
    cases hs : splitChars sep r with
    | nil => exact absurd hs (splitChars_ne_nil sep r)
    | cons g rest => simp [splitChars, hs]
  | cons c cs ih =>
    have hc : ¬c = sep := fun hh => h (hh ▸ List.mem_cons_self c cs)
    have hcs : sep ∉ cs := fun hh => h (List.mem_cons_of_mem c hh)
    have hj : (c :: cs) ++ sep :: r = c :: (cs ++ sep :: r) := rfl
    have hunf : splitChars sep (c :: (cs ++ sep :: r))
        = match splitChars sep (cs ++ sep :: r) with
          | [] => [[c]]
          | f :: rest => if c = sep then [] :: f :: rest else (c :: f) :: rest := rfl
    rw [hj, hunf, ih hcs]
    show (if c = sep then [] :: cs :: splitChars sep r
          else (c :: cs) :: splitChars sep r) = (c :: cs) :: splitChars sep r
    rw [if_neg hc]

theorem splitChars_joinChars (sep : Char) :
    ∀ (fss : List (List Char)), fss ≠ [] → (∀ f ∈ fss, sep ∉ f) →
    splitChars sep (joinChars sep fss) = fss := by
  intro fss
  induction fss with
  | nil => intro h; exact absurd rfl h
  | cons f rest ih =>
    intro _ hno
    cases rest with
    | nil => exact splitChars_no_sep sep f (hno f (List.mem_cons_self f []))
    | cons g rest2 =>
      have hj : joinChars sep (f :: g :: rest2) = f ++ sep :: joinChars sep (g :: rest2) := rfl
      rw [hj, splitChars_append sep f _ (hno f (List.mem_cons_self f (g :: rest2))),
        ih (by simp) (fun x hx => hno x (List.mem_cons_of_mem f hx))]

theorem string_mk_data (s : String) : String.mk s.data = s := rfl

theorem map_mk_data (l : List String) : (l.map String.data).map String.mk = l := by
  rw [List.map_map]
  exact List.map_id'' (fun s => rfl) l

/-- The explicit relative-path/hash pair encoding of a list of output
records. -/
def pairsFlat : List FileRec → List String
  | [] => []
  | f :: rest => f.relative :: f.output_hash :: pairsFlat rest

/-- A file record reduced to its persisted fields. -/
def stripRec (f : FileRec) : FileRec :=
  { relative := f.relative, output_hash := f.output_hash }

theorem pairsFlat_append (a b : List FileRec) :
    pairsFlat (a ++ b) = pairsFlat a ++ pairsFlat b := by
  induction a with
  | nil => rfl
  | cons f rest ih => simp [pairsFlat, ih]

theorem pairsFlat_length (l : List FileRec) : (pairsFlat l).length = 2 * l.length := by
  induction l with
  | nil => rfl
  | cons f rest ih => simp [pairsFlat, ih]; omega

theorem parsePairs_pairsFlat (l : List FileRec) :
    parsePairs (pairsFlat l) = l.map stripRec := by
  induction l with
  | nil => rfl
  | cons f rest ih =>
    cases hr : pairsFlat rest with
    | nil => simp [pairsFlat, parsePairs, hr, stripRec, hr ▸ ih]
    | cons a as => simp [pairsFlat, parsePairs, hr, stripRec, hr ▸ ih]

theorem mem_pairsFlat (l : List FileRec) (x : String) (hx : x ∈ pairsFlat l) :
    ∃ f ∈ l, x = f.relative ∨ x = f.output_hash := by
  induction l with
  | nil => simp [pairsFlat] at hx
  | cons f rest ih =>
    simp only [pairsFlat, List.mem_cons] at hx
    rcases hx with rfl | rfl | h2
    · exact ⟨f, List.mem_cons_self f rest, Or.inl rfl⟩
    · exact ⟨f, List.mem_cons_self f rest, Or.inr rfl⟩
    · obtain ⟨g, hg, hor⟩ := ih h2
      exact ⟨g, List.mem_cons_of_mem f hg, hor⟩

theorem serializeFold_no_id (record : CacheEntry) :
    ∀ (files : List FileRec), (∀ f ∈ files, f.relative ≠ record.relative) →
    ∀ (acc : List String),
    files.foldl (serializeStep record) acc = acc ++ pairsFlat files := by
  intro files
  induction files with
  | nil => intro _ acc; simp [pairsFlat]
  | cons f rest ih =>
    intro hno acc
    have hf : ¬f.relative = record.relative := hno f (List.mem_cons_self f rest)
    have hstep : serializeStep record acc f = acc ++ [f.relative, f.output_hash] := by
      unfold serializeStep
      rw [if_neg hf]
    rw [List.foldl_cons, hstep, ih (fun x hx => hno x (List.mem_cons_of_mem f hx))]
    simp [pairsFlat]

theorem serializeFields_no_id (version : Nat) (record : CacheEntry)
    (hno : ∀ f ∈ record.files, f.relative ≠ record.relative) :
    serializeFields version record
      = [record.relative, String.mk (natToChars version), record.input_hash]
        ++ pairsFlat record.files :=
  serializeFold_no_id record record.files hno _

theorem serializeFields_split (version : Nat) (record : CacheEntry)
    (pre post : List FileRec) (idf : FileRec)
    (hfiles : record.files = pre ++ idf :: post)
    (hid : idf.relative = record.relative)
    (hpre : ∀ f ∈ pre, f.relative ≠ record.relative)
    (hpost : ∀ f ∈ post, f.relative ≠ record.relative) :
    serializeFields version record
      = [record.relative, String.mk (natToChars version), record.input_hash,
          idf.output_hash] ++ pairsFlat pre ++ pairsFlat post := by
  unfold serializeFields
  rw [hfiles, List.foldl_append, serializeFold_no_id record pre hpre, List.foldl_cons]
  have hstep : serializeStep record
      ([record.relative, String.mk (natToChars version), record.input_hash]
        ++ pairsFlat pre) idf
      = [record.relative, String.mk (natToChars version), record.input_hash,
          idf.output_hash] ++ pairsFlat pre := by
    unfold serializeStep
    rw [if_pos hid]
    simp
  rw [hstep, serializeFold_no_id record post hpost]

theorem exists_split_identity (l : List FileRec) (r : String)
    (hex : ∃ f ∈ l, f.relative = r)
    (hnodup : (l.map FileRec.relative).Nodup) :
    ∃ pre idf post, l = pre ++ idf :: post ∧ idf.relative = r
      ∧ (∀ f ∈ pre, f.relative ≠ r) ∧ (∀ f ∈ post, f.relative ≠ r) := by
  obtain ⟨idf, hmem, hid⟩ := hex
  obtain ⟨pre, post, rfl⟩ := List.append_of_mem hmem
  have hmap : (pre ++ idf :: post).map FileRec.relative
      = pre.map FileRec.relative ++ idf.relative :: post.map FileRec.relative := by
    simp
  rw [hmap] at hnodup
  have hmid := List.nodup_middle.mp hnodup
  have hnotin := (List.nodup_cons.mp hmid).1
  refine ⟨pre, idf, post, rfl, hid, ?_, ?_⟩
  · intro f hf hfr
    apply hnotin
    apply List.mem_append_left
    have hm : f.relative ∈ pre.map FileRec.relative :=
      List.mem_map_of_mem FileRec.relative hf
    rw [hfr, ← hid] at hm
    exact hm
  · intro f hf hfr
    apply hnotin
    apply List.mem_append_right
    have hm : f.relative ∈ post.map FileRec.relative :=
      List.mem_map_of_mem FileRec.relative hf
    rw [hfr, ← hid] at hm
    exact hm

/-! ## Claims -/

/-- C9: for every input whose relative path contains the index field
delimiter `;`, processing aborts with the fatal assertion before any
cache lookup: the outcome is `assertFail`, the state is untouched and
no warning is emitted — the input is never treated as a cache miss. -/
theorem C9_delimiter_is_fatal (hash : Bytes → String) (fs : String → Option Bytes)
    (cache_folder : String) (version : Nat) (dcw : Bool)
    (transform : Except String (List OutFile)) (st : FuncState)
    (relative : String) (contents : Bytes)
    (h : relative.data.contains ';' = true) :
    func hash fs cache_folder version dcw transform st relative contents
      = (FuncOutcome.assertFail, st, []) := by
  unfold func
  rw [h]
  rfl

/-- Witness for C9 at a concrete input. -/
theorem C9_delimiter_is_fatal_witness :
    func demoHash (fun _ => none) "cache/k" 1 false (Except.ok [])
        { index := [], new_index := [], cache_hit := 0, cache_miss := 0 } "a;b" [1]
      = (FuncOutcome.assertFail,
          { index := [], new_index := [], cache_hit := 0, cache_miss := 0 }, []) :=
  C9_delimiter_is_fatal demoHash (fun _ => none) "cache/k" 1 false (Except.ok [])
    { index := [], new_index := [], cache_hit := 0, cache_miss := 0 } "a;b" [1] (by decide)

/-- C8: when the wrapped transform fails, `cacheMiss` records nothing —
the new index (and the rest of the state, apart from the miss counter)
is unchanged — and the error value is propagated unchanged. -/
theorem C8_transform_error_propagates (hash : Bytes → String) (version : Nat) (dcw : Bool)
    (err : String) (st : FuncState) (relative input_hash : String) :
    cacheMiss hash version dcw (Except.error err) st relative input_hash
      = (FuncOutcome.missErr err, { st with cache_miss := st.cache_miss + 1 }) ∧
    (cacheMiss hash version dcw (Except.error err) st relative input_hash).2.new_index
      = st.new_index :=
  ⟨rfl, rfl⟩

/-- C10: with an empty new index and rebuild mode off, `finish` is a
no-op: no reconciliation, no file writes, no index write, nothing
queued for pruning — regardless of what the old index contains. -/
theorem C10_empty_finish_no_effects (cache_folder : String) (version : Nat)
    (old_index : Index) :
    finish cache_folder version false old_index []
      = { updated := false, final_index := [], writes := [], new_files := 0,
          index_written := none, to_prune := [], unchanged := 0 } := rfl

/-- C7: a missing or unreadable index file loads as the empty index,
and with an empty old index every input is processed as a miss (the
transform is invoked, bumping the miss counter). -/
theorem C7_missing_index_empty (hash : Bytes → String) (fs : String → Option Bytes)
    (cache_folder : String) (version : Nat) (dcw : Bool)
    (transform : Except String (List OutFile)) (nidx : Index) (nh nm : Nat)
    (relative : String) (contents : Bytes)
    (hsemi : relative.data.contains ';' = false) :
    loadIndex none = [] ∧
    isMissOutcome (func hash fs cache_folder version dcw transform
      { index := loadIndex none, new_index := nidx, cache_hit := nh, cache_miss := nm }
      relative contents).1 = true ∧
    (func hash fs cache_folder version dcw transform
      { index := loadIndex none, new_index := nidx, cache_hit := nh, cache_miss := nm }
      relative contents).2.1.cache_miss = nm + 1 := by
  have hm := cacheMiss_spec hash version dcw transform
    { index := ([] : Index), new_index := nidx, cache_hit := nh, cache_miss := nm }
    relative (hash contents)
  refine ⟨rfl, ?_, ?_⟩ <;>
    simp only [func, loadIndex, hsemi, Bool.false_eq_true, if_false, lookupEntry]
  · exact hm.1
  · exact hm.2.1

/-- C1: processing an input yields a hit — delivering the previously
recorded output bytes bit-for-bit (each delivered file is exactly the
bytes on disk at the entry's cache path, whose digest equals the
recorded output hash), marking the old entry seen, bumping the hit
counter and leaving the miss counter (the transform-invocation count)
alone — only when an old-index entry exists for the relative path with
the current task version and the digest of the current input bytes;
conversely, an absent entry or a version or hash mismatch always yields
a miss and invokes the transform. -/
theorem C1_hit_requires_valid_entry (hash : Bytes → String) (fs : String → Option Bytes)
    (cache_folder : String) (version : Nat) (dcw : Bool)
    (transform : Except String (List OutFile)) (st : FuncState)
    (relative : String) (contents : Bytes)
    (hsemi : relative.data.contains ';' = false) :
    (∀ outputs st2 warns,
      func hash fs cache_folder version dcw transform st relative contents
        = (FuncOutcome.hit outputs, st2, warns) →
      ∃ record, lookupEntry st.index relative = some record ∧
        record.ver = version ∧ record.input_hash = hash contents ∧
        readCachedFiles hash fs cache_folder record record.files = Except.ok outputs ∧
        List.Forall₂ (fun (fe : FileRec) (o : OutFile) =>
          o.relative = fe.relative ∧ hash o.contents = fe.output_hash ∧
          fs (recordToFilename2 cache_folder record fe) = some o.contents)
          record.files outputs ∧
        st2 = { st with index := markSeen st.index relative,
                        cache_hit := st.cache_hit + 1 } ∧
        warns = [])
    ∧ ((∀ record, lookupEntry st.index relative = some record →
          record.ver ≠ version ∨ record.input_hash ≠ hash contents) →
        isMissOutcome
          (func hash fs cache_folder version dcw transform st relative contents).1 = true ∧
        (func hash fs cache_folder version dcw transform
          st relative contents).2.1.cache_miss = st.cache_miss + 1) := by
  constructor
  · intro outputs st2 warns h
    unfold func at h
    simp only [hsemi, Bool.false_eq_true, if_false] at h
    cases hlook : lookupEntry st.index relative with
    | none =>
      simp only [hlook] at h
      have hm := (cacheMiss_spec hash version dcw transform st relative (hash contents)).1
      rw [congrArg Prod.fst h] at hm
      cases hm
    | some record =>
      simp only [hlook] at h
      by_cases hcond : record.ver = version ∧ record.input_hash = hash contents
      · rw [if_pos hcond] at h
        cases hread : readCachedFiles hash fs cache_folder record record.files with
        | error w =>
          simp only [hread] at h
          have hm := (cacheMiss_spec hash version dcw transform st relative (hash contents)).1
          rw [congrArg Prod.fst h] at hm
          cases hm
        | ok outs =>
          simp only [hread, Prod.mk.injEq, FuncOutcome.hit.injEq] at h
          obtain ⟨rfl, h2, h3⟩ := h
          exact ⟨record, rfl, hcond.1, hcond.2, hread,
            readCachedFiles_ok_spec hash fs cache_folder record record.files _ hread,
            h2.symm, h3.symm⟩
      · rw [if_neg hcond] at h
        have hm := (cacheMiss_spec hash version dcw transform st relative (hash contents)).1
        rw [congrArg Prod.fst h] at hm
        cases hm
  · intro hmiss
    have hm := cacheMiss_spec hash version dcw transform st relative (hash contents)
    unfold func
    simp only [hsemi, Bool.false_eq_true, if_false]
    cases hlook : lookupEntry st.index relative with
    | none =>
      simp only [hlook]
      exact ⟨hm.1, hm.2.1⟩
    | some record =>
      simp only [hlook]
      have hcond : ¬(record.ver = version ∧ record.input_hash = hash contents) := by
        rcases hmiss record hlook with h | h
        · exact fun hc => h hc.1
        · exact fun hc => h hc.2
      rw [if_neg hcond]
      exact ⟨hm.1, hm.2.1⟩

/-- A concrete filesystem and probe state used by witnesses. -/
def wFsEmpty : String → Option Bytes := fun _ => none

def wSt0 : FuncState := { index := [], new_index := [], cache_hit := 0, cache_miss := 0 }

/-- Witness for C1 at a concrete input. -/
theorem C1_hit_requires_valid_entry_witness :
    ("a".data.contains ';' = false) ∧
    ((∀ outputs st2 warns,
      func demoHash wFsEmpty "c" 1 false (Except.ok []) wSt0 "a" [0]
        = (FuncOutcome.hit outputs, st2, warns) →
      ∃ record, lookupEntry wSt0.index "a" = some record ∧
        record.ver = 1 ∧ record.input_hash = demoHash [0] ∧
        readCachedFiles demoHash wFsEmpty "c" record record.files = Except.ok outputs ∧
        List.Forall₂ (fun (fe : FileRec) (o : OutFile) =>
          o.relative = fe.relative ∧ demoHash o.contents = fe.output_hash ∧
          wFsEmpty (recordToFilename2 "c" record fe) = some o.contents)
          record.files outputs ∧
        st2 = { wSt0 with index := markSeen wSt0.index "a",
                          cache_hit := wSt0.cache_hit + 1 } ∧
        warns = [])
    ∧ ((∀ record, lookupEntry wSt0.index "a" = some record →
          record.ver ≠ 1 ∨ record.input_hash ≠ demoHash [0]) →
        isMissOutcome
          (func demoHash wFsEmpty "c" 1 false (Except.ok []) wSt0 "a" [0]).1 = true ∧
        (func demoHash wFsEmpty "c" 1 false (Except.ok [])
          wSt0 "a" [0]).2.1.cache_miss = wSt0.cache_miss + 1)) :=
  ⟨by decide,
    C1_hit_requires_valid_entry demoHash wFsEmpty "c" 1 false (Except.ok [])
      wSt0 "a" [0] (by decide)⟩

/-- C2: when the looked-up entry's version and input hash both match
but reading any one of its cached output files fails — the file is
missing/unreadable or its digest differs from the recorded output hash —
the whole entry is treated as a miss (the transform is invoked and no
cached bytes are delivered), and the single warning emitted names the
offending on-disk path. -/
theorem C2_read_failure_is_miss (hash : Bytes → String) (fs : String → Option Bytes)
    (cache_folder : String) (version : Nat) (dcw : Bool)
    (transform : Except String (List OutFile)) (st : FuncState)
    (relative : String) (contents : Bytes) (record : CacheEntry)
    (hsemi : relative.data.contains ';' = false)
    (hlook : lookupEntry st.index relative = some record)
    (hver : record.ver = version)
    (hhash : record.input_hash = hash contents)
    (hfail : ∃ fe ∈ record.files,
        fs (recordToFilename2 cache_folder record fe) = none ∨
        ∃ b, fs (recordToFilename2 cache_folder record fe) = some b ∧
          hash b ≠ fe.output_hash) :
    isMissOutcome (func hash fs cache_folder version dcw transform st relative contents).1
      = true ∧
    (func hash fs cache_folder version dcw transform st relative contents).2.1.cache_miss
      = st.cache_miss + 1 ∧
    ∃ fe ∈ record.files,
      (fs (recordToFilename2 cache_folder record fe) = none ∧
        (func hash fs cache_folder version dcw transform st relative contents).2.2
          = [CacheWarn.loadFail (recordToFilename2 cache_folder record fe)]) ∨
      (∃ b, fs (recordToFilename2 cache_folder record fe) = some b ∧
        hash b ≠ fe.output_hash ∧
        (func hash fs cache_folder version dcw transform st relative contents).2.2
          = [CacheWarn.corrupt (recordToFilename2 cache_folder record fe)
              fe.output_hash (hash b)]) := by
  have hm := cacheMiss_spec hash version dcw transform st relative (hash contents)
  obtain ⟨fe, hmem, hcase⟩ :=
    readCachedFiles_error_of_exists hash fs cache_folder record record.files hfail
  rcases hcase with ⟨hnone, herr⟩ | ⟨b, hsome, hneq, herr⟩
  · have hfunc : func hash fs cache_folder version dcw transform st relative contents
        = ((cacheMiss hash version dcw transform st relative (hash contents)).1,
           (cacheMiss hash version dcw transform st relative (hash contents)).2,
           [CacheWarn.loadFail (recordToFilename2 cache_folder record fe)]) := by
      unfold func
      simp only [hsemi, Bool.false_eq_true, if_false, hlook,
        if_pos (And.intro hver hhash), herr]
    rw [hfunc]
    exact ⟨hm.1, hm.2.1, fe, hmem, Or.inl ⟨hnone, rfl⟩⟩
  · have hfunc : func hash fs cache_folder version dcw transform st relative contents
        = ((cacheMiss hash version dcw transform st relative (hash contents)).1,
           (cacheMiss hash version dcw transform st relative (hash contents)).2,
           [CacheWarn.corrupt (recordToFilename2 cache_folder record fe)
              fe.output_hash (hash b)]) := by
      unfold func
      simp only [hsemi, Bool.false_eq_true, if_false, hlook,
        if_pos (And.intro hver hhash), herr]
    rw [hfunc]
    exact ⟨hm.1, hm.2.1, fe, hmem, Or.inr ⟨b, hsome, hneq, rfl⟩⟩

/-- A concrete one-entry old index whose single cached file is missing
from the filesystem, for the C2 witness. -/
def w2file : FileRec := { relative := "a", output_hash := "XX" }

def w2rec : CacheEntry :=
  { relative := "a", ver := 1, input_hash := demoHash [0], files := [w2file] }

def w2st : FuncState :=
  { index := [w2rec], new_index := [], cache_hit := 0, cache_miss := 0 }

/-- Witness for C2 at a concrete input. -/
theorem C2_read_failure_is_miss_witness :
    isMissOutcome (func demoHash wFsEmpty "c" 1 false (Except.ok []) w2st "a" [0]).1
      = true ∧
    (func demoHash wFsEmpty "c" 1 false (Except.ok []) w2st "a" [0]).2.1.cache_miss
      = w2st.cache_miss + 1 ∧
    ∃ fe ∈ w2rec.files,
      (wFsEmpty (recordToFilename2 "c" w2rec fe) = none ∧
        (func demoHash wFsEmpty "c" 1 false (Except.ok []) w2st "a" [0]).2.2
          = [CacheWarn.loadFail (recordToFilename2 "c" w2rec fe)]) ∨
      (∃ b, wFsEmpty (recordToFilename2 "c" w2rec fe) = some b ∧
        demoHash b ≠ fe.output_hash ∧
        (func demoHash wFsEmpty "c" 1 false (Except.ok []) w2st "a" [0]).2.2
          = [CacheWarn.corrupt (recordToFilename2 "c" w2rec fe)
              fe.output_hash (demoHash b)]) :=
  C2_read_failure_is_miss demoHash wFsEmpty "c" 1 false (Except.ok []) w2st "a" [0] w2rec
    (by decide) (by decide) (by decide) (by decide)
    ⟨w2file, List.mem_cons_self w2file [], Or.inl rfl⟩

/-- Witness for C7 at a concrete input. -/
theorem C7_missing_index_empty_witness :
    loadIndex none = [] ∧
    isMissOutcome (func demoHash (fun _ => none) "cache/k" 1 true (Except.ok [])
      { index := loadIndex none, new_index := [], cache_hit := 0, cache_miss := 0 }
      "a.png" [1]).1 = true ∧
    (func demoHash (fun _ => none) "cache/k" 1 true (Except.ok [])
      { index := loadIndex none, new_index := [], cache_hit := 0, cache_miss := 0 }
      "a.png" [1]).2.1.cache_miss = 0 + 1 :=
  C7_missing_index_empty demoHash (fun _ => none) "cache/k" 1 true (Except.ok [])
    [] 0 0 "a.png" [1] (by decide)

/-- C5: during reconciliation, an old-index entry whose relative path
has no new-index counterpart is handled by exactly the three-way rule:
a version mismatch queues all of its output files for deletion; else,
in rebuild mode with the `seen` flag unset, all of its output files are
queued; otherwise the entry is carried forward unchanged into the final
index, contributing exactly one to the `unchanged` counter. -/
theorem C5_no_new_counterpart (cache_folder : String) (version : Nat) (rebuild : Bool)
    (old_index new_index : Index)
    (hnodup : (old_index.map CacheEntry.relative).Nodup)
    (e : CacheEntry) (he : e ∈ old_index)
    (habsent : lookupEntry new_index e.relative = none) :
    (e.ver ≠ version →
      ∀ f ∈ e.files, recordToFilename2 cache_folder e f
        ∈ (reconcile cache_folder version rebuild old_index new_index).to_prune)
    ∧ (e.ver = version → rebuild = true → e.seen = false →
      ∀ f ∈ e.files, recordToFilename2 cache_folder e f
        ∈ (reconcile cache_folder version rebuild old_index new_index).to_prune)
    ∧ (e.ver = version → ¬(rebuild = true ∧ e.seen = false) →
      lookupEntry (reconcile cache_folder version rebuild old_index new_index).new_index
          e.relative = some e
      ∧ entryUnchangedCount cache_folder version rebuild new_index e = 1
      ∧ (reconcile cache_folder version rebuild old_index new_index).unchanged
          = (old_index.map (entryUnchangedCount cache_folder version rebuild new_index)).sum) := by
  obtain ⟨h1, h2, h3, h4⟩ :=
    reconcile_spec cache_folder version rebuild old_index new_index hnodup
  refine ⟨?_, ?_, ?_⟩
  · intro hv f hf
    have hpr : entryPrunes cache_folder version rebuild new_index e
        = entryAllFilenames cache_folder e := by
      simp only [entryPrunes, habsent, if_pos hv]
    rw [h1]
    refine mem_listJoin_of_mem
      (List.mem_map_of_mem (entryPrunes cache_folder version rebuild new_index) he) ?_
    rw [hpr]
    exact List.mem_map_of_mem _ hf
  · intro hv hrb hseen f hf
    have hpr : entryPrunes cache_folder version rebuild new_index e
        = entryAllFilenames cache_folder e := by
      simp only [entryPrunes, habsent, if_neg (not_not_intro hv), hrb, hseen]
      simp
    rw [h1]
    refine mem_listJoin_of_mem
      (List.mem_map_of_mem (entryPrunes cache_folder version rebuild new_index) he) ?_
    rw [hpr]
    exact List.mem_map_of_mem _ hf
  · intro hv hnotrb
    have hcond : (rebuild && !e.seen) = false := by
      rcases Bool.eq_false_or_eq_true (rebuild && !e.seen) with h | h
      · exfalso
        apply hnotrb
        have := Bool.and_eq_true_iff.mp h
        exact ⟨this.1, by simpa using this.2⟩
      · exact h
    refine ⟨?_, ?_, by rw [h2]⟩
    · rw [h4 e he]
      simp only [entryFinal, habsent, if_neg (not_not_intro hv), hcond]
      simp
    · simp only [entryUnchangedCount, habsent, if_neg (not_not_intro hv), hcond]
      simp

/-- Concrete entries for the C5 witness: an old entry with matching
version, not seen, no new-index counterpart, rebuild off. -/
def w5file : FileRec := { relative := "a.png", output_hash := "X" }

def w5old : CacheEntry :=
  { relative := "a.png", ver := 3, input_hash := "H1", files := [w5file] }

def w5new : CacheEntry :=
  { relative := "b.png", ver := 3, input_hash := "H2",
    files := [{ relative := "b.png", output_hash := "Y", needs_write := true,
                contents := some [5] }] }

/-- Witness for C5 at a concrete input. -/
theorem C5_no_new_counterpart_witness :
    (w5old.ver ≠ 3 →
      ∀ f ∈ w5old.files, recordToFilename2 "c" w5old f
        ∈ (reconcile "c" 3 false [w5old] [w5new]).to_prune)
    ∧ (w5old.ver = 3 → false = true → w5old.seen = false →
      ∀ f ∈ w5old.files, recordToFilename2 "c" w5old f
        ∈ (reconcile "c" 3 false [w5old] [w5new]).to_prune)
    ∧ (w5old.ver = 3 → ¬(false = true ∧ w5old.seen = false) →
      lookupEntry (reconcile "c" 3 false [w5old] [w5new]).new_index w5old.relative
          = some w5old
      ∧ entryUnchangedCount "c" 3 false [w5new] w5old = 1
      ∧ (reconcile "c" 3 false [w5old] [w5new]).unchanged
          = ([w5old].map (entryUnchangedCount "c" 3 false [w5new])).sum) :=
  C5_no_new_counterpart "c" 3 false [w5old] [w5new] (by decide) w5old (by decide) (by decide)

/-- C4 (amended): during reconciliation, for a relative path with both
an old-index entry and a new-index entry, the per-file match/clear/queue
rule applies only when the two entries' recorded input hashes are equal:
then each old output file with an identical (relative path, output hash)
counterpart has every matching new record's captured bytes discarded and
`needs_write` cleared, and each old output file with no identical
counterpart has its on-disk cache file queued for deletion.  When the
input hashes differ, the new entry is left untouched (its files still
flagged for writing) and every old output file is queued for deletion. -/
theorem C4_merge_by_pairs (cache_folder : String) (version : Nat) (rebuild : Bool)
    (old_index new_index : Index)
    (hnodup : (old_index.map CacheEntry.relative).Nodup)
    (e : CacheEntry) (he : e ∈ old_index) (ne : CacheEntry)
    (hne : lookupEntry new_index e.relative = some ne) :
    (e.input_hash = ne.input_hash →
      ∀ of ∈ e.files,
        ((∃ nf ∈ ne.files, nf.relative = of.relative ∧ nf.output_hash = of.output_hash) →
          ∀ fin, lookupEntry
              (reconcile cache_folder version rebuild old_index new_index).new_index
              e.relative = some fin →
            ∀ nf ∈ fin.files, nf.relative = of.relative → nf.output_hash = of.output_hash →
              nf.needs_write = false ∧ nf.contents = none)
        ∧ ((¬∃ nf ∈ ne.files, nf.relative = of.relative ∧ nf.output_hash = of.output_hash) →
            recordToFilename2 cache_folder e of
              ∈ (reconcile cache_folder version rebuild old_index new_index).to_prune))
    ∧ (e.input_hash ≠ ne.input_hash →
        lookupEntry (reconcile cache_folder version rebuild old_index new_index).new_index
            e.relative = some ne
        ∧ ∀ of ∈ e.files, recordToFilename2 cache_folder e of
            ∈ (reconcile cache_folder version rebuild old_index new_index).to_prune) := by
  obtain ⟨h1, h2, h3, h4⟩ :=
    reconcile_spec cache_folder version rebuild old_index new_index hnodup
  constructor
  · intro hh of hof
    constructor
    · intro hex fin hfin nf hnf hrel hhash
      have hEF := h4 e he
      rw [hfin] at hEF
      have hEF2 : entryFinal cache_folder version rebuild new_index e
          = some { ne with files := (reconcileFiles cache_folder e ne.files).1 } := by
        simp only [entryFinal, hne, if_pos hh]
      rw [hEF2] at hEF
      cases hEF
      have hclear := reconcileFiles_cleared cache_folder e ne.files of hof
        ((any_fileMatches_iff of ne.files).mpr hex)
      exact hclear nf hnf (by simp [fileMatches, hrel, hhash])
    · intro hnex
      have hnomatch : ne.files.any (fileMatches of) = false :=
        Bool.eq_false_iff.mpr fun hc => hnex ((any_fileMatches_iff of ne.files).mp hc)
      rw [h1]
      refine mem_listJoin_of_mem
        (List.mem_map_of_mem (entryPrunes cache_folder version rebuild new_index) he) ?_
      simp only [entryPrunes, hne, if_pos hh]
      exact reconcileFiles_prunes cache_folder e ne.files of hof hnomatch
  · intro hh
    constructor
    · rw [h4 e he]
      simp only [entryFinal, hne, if_neg hh]
    · intro of hof
      rw [h1]
      refine mem_listJoin_of_mem
        (List.mem_map_of_mem (entryPrunes cache_folder version rebuild new_index) he) ?_
      simp only [entryPrunes, hne, if_neg hh]
      exact List.mem_map_of_mem _ hof

/-- Concrete entries on which the original C4 claim fails: the input
hashes differ, one old output file has an identical counterpart. -/
def c4oldfile : FileRec := { relative := "a.png", output_hash := "X" }

def c4old : CacheEntry :=
  { relative := "a.png", ver := 2, input_hash := "H1", files := [c4oldfile] }

def c4newfile : FileRec :=
  { relative := "a.png", output_hash := "X", needs_write := true, contents := some [1, 2] }

def c4new : CacheEntry :=
  { relative := "a.png", ver := 2, input_hash := "H2", files := [c4newfile] }

/-- Counterexample to C4 as stated: both entries exist for `a.png` and
the old output file has an identical (relative path, output hash)
counterpart, yet after reconciliation that counterpart still carries its
captured bytes and `needs_write` flag (it will be rewritten), and the
old file's on-disk cache file is queued for deletion — because the
entries' input hashes differ, reconciliation never compares the files. -/
theorem C4_counterexample :
    (∃ nf ∈ c4new.files,
      nf.relative = c4oldfile.relative ∧ nf.output_hash = c4oldfile.output_hash)
    ∧ lookupEntry (reconcile "c" 2 false [c4old] [c4new]).new_index "a.png" = some c4new
    ∧ c4newfile ∈ c4new.files
    ∧ c4newfile.needs_write = true
    ∧ c4newfile.contents = some [1, 2]
    ∧ recordToFilename2 "c" c4old c4oldfile
        ∈ (reconcile "c" 2 false [c4old] [c4new]).to_prune := by decide

/-- Witness for the amended C4 at a concrete input. -/
theorem C4_merge_by_pairs_witness :
    (c4old.input_hash = c4new.input_hash →
      ∀ of ∈ c4old.files,
        ((∃ nf ∈ c4new.files, nf.relative = of.relative ∧ nf.output_hash = of.output_hash) →
          ∀ fin, lookupEntry (reconcile "c" 2 false [c4old] [c4new]).new_index
              c4old.relative = some fin →
            ∀ nf ∈ fin.files, nf.relative = of.relative → nf.output_hash = of.output_hash →
              nf.needs_write = false ∧ nf.contents = none)
        ∧ ((¬∃ nf ∈ c4new.files, nf.relative = of.relative ∧ nf.output_hash = of.output_hash) →
            recordToFilename2 "c" c4old of
              ∈ (reconcile "c" 2 false [c4old] [c4new]).to_prune))
    ∧ (c4old.input_hash ≠ c4new.input_hash →
        lookupEntry (reconcile "c" 2 false [c4old] [c4new]).new_index c4old.relative
            = some c4new
        ∧ ∀ of ∈ c4old.files, recordToFilename2 "c" c4old of
            ∈ (reconcile "c" 2 false [c4old] [c4new]).to_prune) :=
  C4_merge_by_pairs "c" 2 false [c4old] [c4new] (by decide) c4old (by decide) c4new (by decide)

/-- C3 (amended): after bumping the task version and re-running with
write-back enabled (every old entry's version differs and misses were
recorded), `finish` runs the update: for a still-present input (old and
new entries both exist), old output files are superseded — queued for
pruning, with the new entry's flagged files written — except those whose
(relative path, output hash) pair is identically reproduced with the
same input hash, which are kept in place (the entry queues exactly its
non-reproduced files, and the reproduced file's name is absent from the
whole prune queue whenever no other cache file sanitizes to the same
name — filename collisions are the spec's open question) and not
rewritten (the matching record's `needs_write` is cleared), while every
still-flagged record that no old file reproduces is written; old entries
of inputs no longer present have all their files queued for pruning and
are dropped from the final index. -/
theorem C3_version_bump_pruning (cache_folder : String) (version : Nat)
    (old_index new_index : Index)
    (hnodup : (old_index.map CacheEntry.relative).Nodup)
    (hbump : ∀ x ∈ old_index, x.ver ≠ version)
    (hnonempty : new_index ≠ [])
    (e : CacheEntry) (he : e ∈ old_index) :
    (finish cache_folder version false old_index new_index).to_prune
        = (reconcile cache_folder version false old_index new_index).to_prune
    ∧ (finish cache_folder version false old_index new_index).writes
        = writeList cache_folder
            (reconcile cache_folder version false old_index new_index).new_index
    ∧ (reconcile cache_folder version false old_index new_index).to_prune
        = listJoin (old_index.map (entryPrunes cache_folder version false new_index))
    ∧ (lookupEntry new_index e.relative = none →
        (∀ f ∈ e.files, recordToFilename2 cache_folder e f
            ∈ (reconcile cache_folder version false old_index new_index).to_prune)
        ∧ lookupEntry (reconcile cache_folder version false old_index new_index).new_index
            e.relative = none)
    ∧ (∀ ne, lookupEntry new_index e.relative = some ne →
        (e.input_hash ≠ ne.input_hash →
          (∀ f ∈ e.files, recordToFilename2 cache_folder e f
              ∈ (reconcile cache_folder version false old_index new_index).to_prune)
          ∧ (∀ nf ∈ ne.files, nf.needs_write = true →
              (recordToFilename2 cache_folder ne nf, nf.contents.getD [])
                ∈ writeList cache_folder
                    (reconcile cache_folder version false old_index new_index).new_index))
        ∧ (e.input_hash = ne.input_hash →
          entryPrunes cache_folder version false new_index e
              = (e.files.filter (fun of => !(ne.files.any (fileMatches of)))).map
                  (recordToFilename2 cache_folder e)
          ∧ (∀ of ∈ e.files,
              ((¬∃ nf ∈ ne.files, nf.relative = of.relative
                  ∧ nf.output_hash = of.output_hash) →
                recordToFilename2 cache_folder e of
                  ∈ (reconcile cache_folder version false old_index new_index).to_prune)
              ∧ ((∃ nf ∈ ne.files, nf.relative = of.relative
                  ∧ nf.output_hash = of.output_hash) →
                (∀ fin, lookupEntry
                    (reconcile cache_folder version false old_index new_index).new_index
                    e.relative = some fin →
                  ∀ nf ∈ fin.files, nf.relative = of.relative →
                    nf.output_hash = of.output_hash → nf.needs_write = false)
                ∧ ((∀ e2 ∈ old_index, ∀ f2 ∈ e2.files,
                      recordToFilename2 cache_folder e2 f2
                        = recordToFilename2 cache_folder e of →
                      e2 = e ∧ f2 = of) →
                    recordToFilename2 cache_folder e of
                      ∉ (reconcile cache_folder version false old_index
                          new_index).to_prune)))
          ∧ (∀ nf ∈ ne.files, nf.needs_write = true →
              (∀ of ∈ e.files, ¬(nf.relative = of.relative
                  ∧ nf.output_hash = of.output_hash)) →
              (recordToFilename2 cache_folder ne nf, nf.contents.getD [])
                ∈ writeList cache_folder
                    (reconcile cache_folder version false old_index
                      new_index).new_index))) := by
  obtain ⟨h1, h2, h3, h4⟩ :=
    reconcile_spec cache_folder version false old_index new_index hnodup
  have hg : (new_index.isEmpty && !false) = false := by
    cases new_index with
    | nil => exact absurd rfl hnonempty
    | cons a l => rfl
  refine ⟨?_, ?_, h1, ?_, ?_⟩
  · simp only [finish, hg, Bool.false_eq_true, if_false]
  · simp only [finish, hg, Bool.false_eq_true, if_false]
  · intro habsent
    constructor
    · intro f hf
      rw [h1]
      refine mem_listJoin_of_mem
        (List.mem_map_of_mem (entryPrunes cache_folder version false new_index) he) ?_
      simp only [entryPrunes, habsent, if_pos (hbump e he)]
      exact List.mem_map_of_mem _ hf
    · rw [h4 e he]
      simp only [entryFinal, habsent, if_pos (hbump e he)]
  · intro ne hne
    constructor
    · intro hh
      constructor
      · intro f hf
        rw [h1]
        refine mem_listJoin_of_mem
          (List.mem_map_of_mem (entryPrunes cache_folder version false new_index) he) ?_
        simp only [entryPrunes, hne, if_neg hh]
        exact List.mem_map_of_mem _ hf
      · intro nf hnf hw
        have hfin : lookupEntry
            (reconcile cache_folder version false old_index new_index).new_index e.relative
            = some ne := by
          rw [h4 e he]
          simp only [entryFinal, hne, if_neg hh]
        exact mem_writeList cache_folder _ ne nf
          (lookupEntry_mem _ _ _ hfin) hnf hw
    · intro hh
      have hchar : entryPrunes cache_folder version false new_index e
          = (e.files.filter (fun of => !(ne.files.any (fileMatches of)))).map
              (recordToFilename2 cache_folder e) := by
        simp only [entryPrunes, hne, if_pos hh]
        exact reconcileFiles_prunes_eq cache_folder e ne.files
      have hfinal : lookupEntry
          (reconcile cache_folder version false old_index new_index).new_index e.relative
          = some { ne with files := (reconcileFiles cache_folder e ne.files).1 } := by
        rw [h4 e he]
        simp only [entryFinal, hne, if_pos hh]
      refine ⟨hchar, ?_, ?_⟩
      · intro of hof
        constructor
        · intro hnex
          have hnomatch : ne.files.any (fileMatches of) = false :=
            Bool.eq_false_iff.mpr fun hc => hnex ((any_fileMatches_iff of ne.files).mp hc)
          rw [h1]
          refine mem_listJoin_of_mem
            (List.mem_map_of_mem (entryPrunes cache_folder version false new_index) he) ?_
          simp only [entryPrunes, hne, if_pos hh]
          exact reconcileFiles_prunes cache_folder e ne.files of hof hnomatch
        · intro hex
          constructor
          · intro fin hfin nf hnf hrel hhash
            rw [hfinal] at hfin
            cases hfin
            have hclear := reconcileFiles_cleared cache_folder e ne.files of hof
              ((any_fileMatches_iff of ne.files).mpr hex)
            exact (hclear nf hnf (by simp [fileMatches, hrel, hhash])).1
          · intro hdist hmem
            rw [h1] at hmem
            obtain ⟨xs, hxs, hxmem⟩ := mem_listJoin _ _ hmem
            obtain ⟨e2, he2, rfl⟩ := List.mem_map.mp hxs
            obtain ⟨f2, hf2, heq⟩ :=
              entryPrunes_subset cache_folder version false new_index e2 _ hxmem
            obtain ⟨hee, -⟩ := hdist e2 he2 f2 hf2 heq.symm
            rw [hee, hchar] at hxmem
            obtain ⟨g, hg2, hgeq⟩ := List.mem_map.mp hxmem
            obtain ⟨-, hgf⟩ := hdist e he g (List.mem_filter.mp hg2).1 hgeq
            have hfilter := (List.mem_filter.mp hg2).2
            rw [hgf] at hfilter
            have hfalse : ne.files.any (fileMatches of) = false := by
              simpa using hfilter
            rw [(any_fileMatches_iff of ne.files).mpr hex] at hfalse
            cases hfalse
      · intro nf hnf hw hnm
        have hnone : ∀ of ∈ e.files, fileMatches of nf = false := by
          intro of hof
          by_cases hb : fileMatches of nf = true
          · exact absurd (by simpa [fileMatches] using hb) (hnm of hof)
          · exact Bool.eq_false_iff.mpr hb
        have hkeep : nf ∈ (reconcileFiles cache_folder e ne.files).1 :=
          reconcileFiles_keep cache_folder e ne.files nf hnf hnone
        exact mem_writeList cache_folder _
          { ne with files := (reconcileFiles cache_folder e ne.files).1 } nf
          (lookupEntry_mem _ _ _ hfinal) hkeep hw

/-- Concrete entries on which the original C3 claim fails: the version
was bumped, the input is still present with unchanged bytes, and the
re-run transform reproduced the output byte-for-byte. -/
def c3oldfile : FileRec := { relative := "a.png", output_hash := "X" }

def c3old : CacheEntry :=
  { relative := "a.png", ver := 1, input_hash := "H1", files := [c3oldfile] }

def c3newfile : FileRec :=
  { relative := "a.png", output_hash := "X", needs_write := true, contents := some [1, 2] }

def c3new : CacheEntry :=
  { relative := "a.png", ver := 2, input_hash := "H1", files := [c3newfile] }

/-- Counterexample to C3 as stated: version bumped from 1 to 2, the
input is still present (a miss was recorded for it with write-back on),
yet `finish` queues nothing for pruning and writes no files — the old
cache file is kept in place because the new run reproduced the same
(relative path, output hash) pair under the same input hash. -/
theorem C3_counterexample :
    c3old.ver ≠ 2
    ∧ lookupEntry [c3new] c3old.relative = some c3new
    ∧ (finish "c" 2 false [c3old] [c3new]).to_prune = []
    ∧ (finish "c" 2 false [c3old] [c3new]).writes = [] := by decide

/-- Witness for the amended C3 at a concrete input. -/
theorem C3_version_bump_pruning_witness :
    (finish "c" 2 false [c3old] [c3new]).to_prune
        = (reconcile "c" 2 false [c3old] [c3new]).to_prune
    ∧ (finish "c" 2 false [c3old] [c3new]).writes
        = writeList "c" (reconcile "c" 2 false [c3old] [c3new]).new_index
    ∧ (reconcile "c" 2 false [c3old] [c3new]).to_prune
        = listJoin ([c3old].map (entryPrunes "c" 2 false [c3new]))
    ∧ (lookupEntry [c3new] c3old.relative = none →
        (∀ f ∈ c3old.files, recordToFilename2 "c" c3old f
            ∈ (reconcile "c" 2 false [c3old] [c3new]).to_prune)
        ∧ lookupEntry (reconcile "c" 2 false [c3old] [c3new]).new_index
            c3old.relative = none)
    ∧ (∀ ne, lookupEntry [c3new] c3old.relative = some ne →
        (c3old.input_hash ≠ ne.input_hash →
          (∀ f ∈ c3old.files, recordToFilename2 "c" c3old f
              ∈ (reconcile "c" 2 false [c3old] [c3new]).to_prune)
          ∧ (∀ nf ∈ ne.files, nf.needs_write = true →
              (recordToFilename2 "c" ne nf, nf.contents.getD [])
                ∈ writeList "c" (reconcile "c" 2 false [c3old] [c3new]).new_index))
        ∧ (c3old.input_hash = ne.input_hash →
          entryPrunes "c" 2 false [c3new] c3old
              = (c3old.files.filter (fun of => !(ne.files.any (fileMatches of)))).map
                  (recordToFilename2 "c" c3old)
          ∧ (∀ of ∈ c3old.files,
              ((¬∃ nf ∈ ne.files, nf.relative = of.relative
                  ∧ nf.output_hash = of.output_hash) →
                recordToFilename2 "c" c3old of
                  ∈ (reconcile "c" 2 false [c3old] [c3new]).to_prune)
              ∧ ((∃ nf ∈ ne.files, nf.relative = of.relative
                  ∧ nf.output_hash = of.output_hash) →
                (∀ fin, lookupEntry (reconcile "c" 2 false [c3old] [c3new]).new_index
                    c3old.relative = some fin →
                  ∀ nf ∈ fin.files, nf.relative = of.relative →
                    nf.output_hash = of.output_hash → nf.needs_write = false)
                ∧ ((∀ e2 ∈ [c3old], ∀ f2 ∈ e2.files,
                      recordToFilename2 "c" e2 f2 = recordToFilename2 "c" c3old of →
                      e2 = c3old ∧ f2 = of) →
                    recordToFilename2 "c" c3old of
                      ∉ (reconcile "c" 2 false [c3old] [c3new]).to_prune)))
          ∧ (∀ nf ∈ ne.files, nf.needs_write = true →
              (∀ of ∈ c3old.files, ¬(nf.relative = of.relative
                  ∧ nf.output_hash = of.output_hash)) →
              (recordToFilename2 "c" ne nf, nf.contents.getD [])
                ∈ writeList "c" (reconcile "c" 2 false [c3old] [c3new]).new_index))) :=
  C3_version_bump_pruning "c" 2 [c3old] [c3new] (by decide) (by decide) (by decide)
    c3old (by decide)

theorem parseLine_serializeLine_eq (version : Nat) (e : CacheEntry)
    (hfne : serializeFields version e ≠ [])
    (hnos : ∀ s ∈ serializeFields version e, ';' ∉ s.data) :
    parseLine (serializeLine version e) = parseLineFields (serializeFields version e) := by
  unfold parseLine serializeLine
  have h1 : (String.mk (joinChars ';' ((serializeFields version e).map String.data))).data
      = joinChars ';' ((serializeFields version e).map String.data) := rfl
  rw [h1, splitChars_joinChars ';' ((serializeFields version e).map String.data)
      (fun hh => hfne (List.map_eq_nil_iff.mp hh))
      (fun f hf => by
        obtain ⟨s, hs, rfl⟩ := List.mem_map.mp hf
        exact hnos s hs),
    map_mk_data]

theorem map_filePair_stripRec (l : List FileRec) :
    (l.map stripRec).map filePair = l.map filePair := by
  induction l with
  | nil => rfl
  | cons f rest ih => simp [stripRec, filePair, ih]

/-- C6: serializing an entry with at least one output file (distinct
relative paths, delimiter-free fields) to an index line and parsing that
line back yields an entry with the same relative path, version and input
hash and the same multiset of (relative path, output hash) records; the
entry's own-path output, when present, is encoded as a lone fourth hash
field — signalled on load by an odd count of trailing fields — and every
other output as an explicit relative-path/hash pair. -/
theorem C6_line_round_trip (version : Nat) (e : CacheEntry)
    (hv : e.ver = version)
    (_hN : e.files ≠ [])
    (hnodup : (e.files.map FileRec.relative).Nodup)
    (hsr : ';' ∉ e.relative.data)
    (hsh : ';' ∉ e.input_hash.data)
    (hsf : ∀ f ∈ e.files, ';' ∉ f.relative.data ∧ ';' ∉ f.output_hash.data) :
    ∃ e2, parseLine (serializeLine version e) = some e2
      ∧ e2.relative = e.relative
      ∧ e2.ver = e.ver
      ∧ e2.input_hash = e.input_hash
      ∧ e2.seen = false
      ∧ (e2.files.map filePair).Perm (e.files.map filePair)
      ∧ (((serializeFields version e).drop 3).length % 2 = 1
          ↔ ∃ f ∈ e.files, f.relative = e.relative)
      ∧ ((∃ f ∈ e.files, f.relative = e.relative) →
          ∃ pre idf post, e.files = pre ++ idf :: post ∧ idf.relative = e.relative ∧
            serializeFields version e
              = [e.relative, String.mk (natToChars version), e.input_hash,
                  idf.output_hash] ++ pairsFlat pre ++ pairsFlat post)
      ∧ ((¬∃ f ∈ e.files, f.relative = e.relative) →
          serializeFields version e
            = [e.relative, String.mk (natToChars version), e.input_hash]
              ++ pairsFlat e.files) := by
  by_cases hex : ∃ f ∈ e.files, f.relative = e.relative
  · obtain ⟨pre, idf, post, hfe, hid, hpre, hpost⟩ :=
      exists_split_identity e.files e.relative hex hnodup
    have hser := serializeFields_split version e pre post idf hfe hid hpre hpost
    have hcons : serializeFields version e
        = e.relative :: String.mk (natToChars version) :: e.input_hash ::
          (idf.output_hash :: (pairsFlat pre ++ pairsFlat post)) := by
      rw [hser]
      rfl
    have hidf_mem : idf ∈ e.files := by
      rw [hfe]
      exact List.mem_append_right _ (List.mem_cons_self _ _)
    have hnos : ∀ s ∈ serializeFields version e, ';' ∉ s.data := by
      rw [hcons]
      intro s hs
      simp only [List.mem_cons, List.mem_append] at hs
      rcases hs with rfl | rfl | rfl | rfl | hs2 | hs2
      · exact hsr
      · exact natToChars_no_semi version
      · exact hsh
      · exact (hsf idf hidf_mem).2
      · obtain ⟨f, hf, hor⟩ := mem_pairsFlat pre s hs2
        have hfm : f ∈ e.files := by
          rw [hfe]
          exact List.mem_append_left _ hf
        rcases hor with rfl | rfl
        · exact (hsf f hfm).1
        · exact (hsf f hfm).2
      · obtain ⟨f, hf, hor⟩ := mem_pairsFlat post s hs2
        have hfm : f ∈ e.files := by
          rw [hfe]
          exact List.mem_append_right _ (List.mem_cons_of_mem _ hf)
        rcases hor with rfl | rfl
        · exact (hsf f hfm).1
        · exact (hsf f hfm).2
    have hfne : serializeFields version e ≠ [] := by
      rw [hcons]
      simp
    have hlen : (idf.output_hash :: (pairsFlat pre ++ pairsFlat post)).length % 2 = 1 := by
      simp [List.length_cons, List.length_append, pairsFlat_length]
      omega
    have hparse : parseLineFields (serializeFields version e)
        = some { relative := e.relative,
                 ver := parseNatS (String.mk (natToChars version)),
                 input_hash := e.input_hash,
                 files := { relative := e.relative, output_hash := idf.output_hash }
                   :: (pre ++ post).map stripRec } := by
      rw [hcons]
      simp only [parseLineFields]
      rw [if_pos hlen, if_pos hlen]
      simp only [List.headD_cons, List.tail_cons, List.singleton_append,
        ← pairsFlat_append, parsePairs_pairsFlat]
    refine ⟨_, (parseLine_serializeLine_eq version e hfne hnos).trans hparse,
      rfl, ?_, rfl, rfl, ?_, ?_, ?_, ?_⟩
    · show parseNatS (String.mk (natToChars version)) = e.ver
      rw [hv]
      exact parseNatChars_natToChars version
    · show ((({ relative := e.relative, output_hash := idf.output_hash } : FileRec)
          :: (pre ++ post).map stripRec).map filePair).Perm (e.files.map filePair)
      have hpair : filePair { relative := e.relative, output_hash := idf.output_hash }
          = filePair idf := by
        simp [filePair, hid]
      simp only [List.map_cons, map_filePair_stripRec, hfe, List.map_append, hpair]
      exact List.perm_middle.symm
    · have hd : (serializeFields version e).drop 3
          = idf.output_hash :: (pairsFlat pre ++ pairsFlat post) := by
        rw [hcons]
        rfl
      exact iff_of_true (by rw [hd]; exact hlen) hex
    · exact fun _ => ⟨pre, idf, post, hfe, hid, hser⟩
    · exact fun hn => absurd hex hn
  · have hno : ∀ f ∈ e.files, f.relative ≠ e.relative := fun f hf hh => hex ⟨f, hf, hh⟩
    have hser := serializeFields_no_id version e hno
    have hcons : serializeFields version e
        = e.relative :: String.mk (natToChars version) :: e.input_hash ::
          pairsFlat e.files := by
      rw [hser]
      rfl
    have hnos : ∀ s ∈ serializeFields version e, ';' ∉ s.data := by
      rw [hcons]
      intro s hs
      simp only [List.mem_cons] at hs
      rcases hs with rfl | rfl | rfl | hs2
      · exact hsr
      · exact natToChars_no_semi version
      · exact hsh
      · obtain ⟨f, hf, hor⟩ := mem_pairsFlat e.files s hs2
        rcases hor with rfl | rfl
        · exact (hsf f hf).1
        · exact (hsf f hf).2
    have hfne : serializeFields version e ≠ [] := by
      rw [hcons]
      simp
    have hlen : (pairsFlat e.files).length % 2 = 0 := by
      rw [pairsFlat_length]
      omega
    have hlenne : ¬(pairsFlat e.files).length % 2 = 1 := by
      omega
    have hparse : parseLineFields (serializeFields version e)
        = some { relative := e.relative,
                 ver := parseNatS (String.mk (natToChars version)),
                 input_hash := e.input_hash,
                 files := e.files.map stripRec } := by
      rw [hcons]
      simp only [parseLineFields]
      rw [if_neg hlenne, if_neg hlenne]
      simp only [List.nil_append, parsePairs_pairsFlat]
    refine ⟨_, (parseLine_serializeLine_eq version e hfne hnos).trans hparse,
      rfl, ?_, rfl, rfl, ?_, ?_, ?_, ?_⟩
    · show parseNatS (String.mk (natToChars version)) = e.ver
      rw [hv]
      exact parseNatChars_natToChars version
    · show ((e.files.map stripRec).map filePair).Perm (e.files.map filePair)
      rw [map_filePair_stripRec]
    · have hd : (serializeFields version e).drop 3 = pairsFlat e.files := by
        rw [hcons]
        rfl
      exact iff_of_false (by rw [hd]; exact hlenne) hex
    · exact fun hc => absurd hc hex
    · exact fun _ => hser

/-- A concrete two-output entry (one identity output, one other) for
the C6 witness. -/
def w6e : CacheEntry :=
  { relative := "a.png", ver := 7, input_hash := "HASH",
    files := [{ relative := "b.txt", output_hash := "o1" },
              { relative := "a.png", output_hash := "o2" }] }

/-- Witness for C6 at a concrete entry. -/
theorem C6_line_round_trip_witness :
    ∃ e2, parseLine (serializeLine 7 w6e) = some e2
      ∧ e2.relative = w6e.relative
      ∧ e2.ver = w6e.ver
      ∧ e2.input_hash = w6e.input_hash
      ∧ e2.seen = false
      ∧ (e2.files.map filePair).Perm (w6e.files.map filePair)
      ∧ (((serializeFields 7 w6e).drop 3).length % 2 = 1
          ↔ ∃ f ∈ w6e.files, f.relative = w6e.relative)
      ∧ ((∃ f ∈ w6e.files, f.relative = w6e.relative) →
          ∃ pre idf post, w6e.files = pre ++ idf :: post ∧ idf.relative = w6e.relative ∧
            serializeFields 7 w6e
              = [w6e.relative, String.mk (natToChars 7), w6e.input_hash,
                  idf.output_hash] ++ pairsFlat pre ++ pairsFlat post)
      ∧ ((¬∃ f ∈ w6e.files, f.relative = w6e.relative) →
          serializeFields 7 w6e
            = [w6e.relative, String.mk (natToChars 7), w6e.input_hash]
              ++ pairsFlat w6e.files) :=
  C6_line_round_trip 7 w6e (by decide) (by decide) (by decide) (by decide) (by decide)
    (by decide)

end GbCache
